import Mathlib

/-!
# Verification of the doso-core namespaced key-value storage

This file embeds the key-value storage core of the repository:

* `src/src/_shared/utilities.ts` — the host-language `clamp`;
* `src/src/key-value-storage/memory-key-value-storage/memory-key-value-storage.ts`
  — the in-memory backend over a shared `Map<string, string>` keyed by
  `JSON.stringify({key, namespace})`;
* `src/unnamed/part_001` (`SqliteKeyValueStorage`) and
  `src/src/key-value-storage/postgres-key-value-storage/postgres-key-value-storage.ts`
  — the SQL backends over a `(namespace, key, value)` table.

Modelling conventions:

* JS numbers are modelled as `Int` (the claims under study only use ordering
  and equality of numeric values).
* A stored value is JSON text produced by `JSON.stringify`; since the JSON
  codec is a bijection between JSON-serializable values and their texts, the
  memory map's value column and the SQL table's value column are modelled by
  the parsed `JsonValue` (the Postgres insert path, which manipulates the raw
  text, is modelled separately on `String`).
* JS objects built with `Object.fromEntries` / `record[key] = v` are modelled
  by `JsRecord`: an association list with first-occurrence order and
  overwrite-on-existing-key semantics, exactly as JS property assignment.
-/

/-- JSON-serializable values (`TValue` instances that survive
`JSON.parse(JSON.stringify v)`), with numbers modelled as `Int`. -/
inductive JsonValue where
  | null : JsonValue
  | bool (b : Bool) : JsonValue
  | num (n : Int) : JsonValue
  | str (s : String) : JsonValue
  | arr (items : List JsonValue) : JsonValue
  | obj (fields : List (String × JsonValue)) : JsonValue

/-! ## JS records (`Object.fromEntries`, `record[key] = v`) -/

/-- A JS object: association list with unique keys in insertion order. -/
abbrev JsRecord (α : Type) : Type := List (String × α)

/-- `record[key] = v`: overwrite the existing property in place, else append. -/
def setEntry {α : Type} : JsRecord α → String → α → JsRecord α
  | [], k, v => [(k, v)]
  | (k', v') :: rest, k, v =>
      if k' = k then (k, v) :: rest else (k', v') :: setEntry rest k v

/-- Property read: `record[key]`, `none` when the property is absent. -/
def getEntry {α : Type} (r : JsRecord α) (k : String) : Option α :=
  (r.find? (fun p => p.1 = k)).map (fun p => p.2)

/-- `Object.fromEntries(entries)`: later entries overwrite earlier ones. -/
def fromEntries {α : Type} (entries : List (String × α)) : JsRecord α :=
  entries.foldl (fun r p => setEntry r p.1 p.2) []

/-- The value of the last entry of `l` carrying key `k`. -/
def lookupLast {α : Type} : List (String × α) → String → Option α
  | [], _ => none
  | (k', v) :: rest, k =>
      match lookupLast rest k with
      | some v' => some v'
      | none => if k' = k then some v else none

theorem getEntry_setEntry {α : Type} (r : JsRecord α) (k k' : String) (v : α) :
    getEntry (setEntry r k v) k' = if k = k' then some v else getEntry r k' := by
  induction r with
  | nil =>
      by_cases h : k = k' <;> simp [setEntry, getEntry, List.find?, h]
  | cons p rest ih =>
      obtain ⟨k₀, v₀⟩ := p
      by_cases h0 : k₀ = k
      · subst h0
        by_cases h : k₀ = k' <;> simp [setEntry, getEntry, List.find?, h]
      · by_cases h : k = k'
        · subst h
          simp only [setEntry, if_neg h0, getEntry, List.find?]
          have hne : (k₀ = k) = False := by simp [h0]
          simp only [getEntry] at ih
          simp [hne, decide_eq_true_eq, h0, ih, if_pos rfl]
        · simp only [setEntry, if_neg h0, getEntry, List.find?]
          by_cases hk0 : k₀ = k'
          · simp [hk0, h]
          · simp only [getEntry] at ih
            simp [hk0, ih, h]

theorem getEntry_fromEntries_aux {α : Type} (l : List (String × α))
    (r : JsRecord α) (k : String) :
    getEntry (l.foldl (fun r p => setEntry r p.1 p.2) r) k =
      match lookupLast l k with
      | some v => some v
      | none => getEntry r k := by
  induction l generalizing r with
  | nil => simp [lookupLast]
  | cons p rest ih =>
      obtain ⟨k₀, v₀⟩ := p
      simp only [List.foldl_cons, ih, lookupLast, getEntry_setEntry]
      cases h : lookupLast rest k with
      | some v => simp
      | none =>
          by_cases hk : k₀ = k <;> simp [hk]

/-- Reading a record built by `Object.fromEntries`: the last entry wins. -/
theorem getEntry_fromEntries {α : Type} (l : List (String × α)) (k : String) :
    getEntry (fromEntries l) k =
      match lookupLast l k with
      | some v => some v
      | none => none := by
  simpa [fromEntries] using getEntry_fromEntries_aux l [] k

/-! ## Clamp settings and the three clamp implementations

`ClampSettings` (`src/src/contracts/key-value-storage/_shared`, re-exported)
is `{min?: number, max?: number}`; an absent bound is `none`.  All three
implementations test a present bound with JS/SQL truthiness-style `if (max)`
guards, so a bound of `0` behaves like an absent one. -/

structure ClampSettings where
  min? : Option Int
  max? : Option Int
deriving Repr, DecidableEq

/-- Embedding of `clamp` from `src/src/_shared/utilities.ts` lines 187-195:

```
function clamp(value, { max, min }) {
    if (max && value > max) return max;
    if (min && value < min) return min;
    return value;
}
```

The `max` bound is tested first; `max && ...` and `min && ...` are JS
truthiness tests, so a bound equal to `0` never fires. -/
def clamp (value : Int) (s : ClampSettings) : Int :=
  match s.max? with
  | some mx =>
      if mx ≠ 0 ∧ value > mx then mx
      else
        match s.min? with
        | some mn => if mn ≠ 0 ∧ value < mn then mn else value
        | none => value
  | none =>
      match s.min? with
      | some mn => if mn ≠ 0 ∧ value < mn then mn else value
      | none => value

/-- Embedding of `SqliteKeyValueStorage.sqlClamp` (`src/unnamed/part_001`
lines 216-230), which builds

* `min(max(value, :min), :max)` when both bounds are truthy,
* `max(value, :min)` when only `min` is truthy,
* `min(value, :max)` when only `max` is truthy,
* the value itself otherwise,

evaluated here with SQLite's numeric scalar `min`/`max`. -/
def sqliteSqlClamp (value : Int) (s : ClampSettings) : Int :=
  match s.max?, s.min? with
  | some mx, some mn =>
      if mx ≠ 0 ∧ mn ≠ 0 then min (max value mn) mx
      else if mn ≠ 0 then max value mn
      else if mx ≠ 0 then min value mx
      else value
  | none, some mn => if mn ≠ 0 then max value mn else value
  | some mx, none => if mx ≠ 0 then min value mx else value
  | none, none => value

/-- Embedding of `PostgresKeyValueStorageInternal.sqlClamp`
(`postgres-key-value-storage.ts` lines 224-238): identical branch structure,
with Postgres `least`/`greatest` in place of SQLite `min`/`max`. -/
def postgresSqlClamp (value : Int) (s : ClampSettings) : Int :=
  match s.max?, s.min? with
  | some mx, some mn =>
      if mx ≠ 0 ∧ mn ≠ 0 then min (max value mn) mx
      else if mn ≠ 0 then max value mn
      else if mx ≠ 0 then min value mx
      else value
  | none, some mn => if mn ≠ 0 then max value mn else value
  | some mx, none => if mx ≠ 0 then min value mx else value
  | none, none => value

/-- Embedding of `SqliteKeyValueStorage.sqlClampJsonValue`
(`src/unnamed/part_001` lines 232-249): the SQL `CASE` dispatches on
`json_type` — a JSON `integer`/`real` is extracted (`->> '$'`), clamped with
`sqlClamp`, and re-quoted with `json_quote`; every non-numeric JSON value
takes the identity `else` branch. `settings` is optional; an absent settings
object behaves as one with both bounds absent. -/
def sqlClampJsonValue (v : JsonValue) (settings : Option ClampSettings) : JsonValue :=
  match v with
  | .num n => .num (sqliteSqlClamp n (settings.getD ⟨none, none⟩))
  | other => other

example : clamp 20 ⟨none, some 10⟩ = 10 := by decide
example : clamp 5 ⟨some 10, none⟩ = 10 := by decide
example : clamp 1 ⟨some 10, some 5⟩ = 10 := by decide
example : sqliteSqlClamp 1 ⟨some 10, some 5⟩ = 5 := by decide

/-! ## The memory backend's internal key scheme

`MemoryKeyValueStorage` addresses its shared `Map<string, string>` with
`serializeInternalKey({key, namespace}) = JSON.stringify({key, namespace})`
(lines 30-35) and decodes physical keys with `deserializeInternalKey =
JSON.parse` (lines 37-39).  `JSON.stringify` renders the two properties in
declaration order and quotes each string with the standard JSON escapes:
`\"`, `\\`, `\b`, `\t`, `\n`, `\f`, `\r`, and `\u00XX` for the remaining
control characters; all other characters are emitted verbatim.  Strings are
modelled as sequences of Unicode scalar values (`List Char`). -/

/-- Lowercase hexadecimal digit for `n < 16`. -/
def hexDigitChar (n : Nat) : Char :=
  if n < 10 then Char.ofNat (48 + n) else Char.ofNat (97 + (n - 10))

/-- Value of a lowercase hexadecimal digit. -/
def hexDigitVal? (c : Char) : Option Nat :=
  if 48 ≤ c.toNat ∧ c.toNat ≤ 57 then some (c.toNat - 48)
  else if 97 ≤ c.toNat ∧ c.toNat ≤ 102 then some (c.toNat - 97 + 10)
  else none

/-- JSON escape of one character, as produced by `JSON.stringify`. -/
def escapeChar (c : Char) : List Char :=
  if c = '"' then ['\\', '"']
  else if c = '\\' then ['\\', '\\']
  else if c = '\x08' then ['\\', 'b']
  else if c = '\x09' then ['\\', 't']
  else if c = '\x0a' then ['\\', 'n']
  else if c = '\x0c' then ['\\', 'f']
  else if c = '\x0d' then ['\\', 'r']
  else if c.toNat < 32 then
    ['\\', 'u', '0', '0', hexDigitChar (c.toNat / 16), hexDigitChar (c.toNat % 16)]
  else [c]

/-- JSON escape of a whole string body. -/
def escapeChars (s : List Char) : List Char := s.flatMap escapeChar

/-- Prepend a decoded character to a scanner result. -/
def consScan (c : Char) : Option (List Char × List Char) → Option (List Char × List Char)
  | some (s, r) => some (c :: s, r)
  | none => none

/-- Decode a `\uXXXX` escape tail: four hex digits, then the rest. -/
def decodeHex4 : List Char → Option (Char × List Char)
  | h1 :: h2 :: h3 :: h4 :: rest =>
    match hexDigitVal? h1, hexDigitVal? h2, hexDigitVal? h3, hexDigitVal? h4 with
    | some v1, some v2, some v3, some v4 =>
        some (Char.ofNat (((v1 * 16 + v2) * 16 + v3) * 16 + v4), rest)
    | _, _, _, _ => none
  | _ => none

/-- Decode the tail of a backslash escape: the decoded character and the
input remaining after the escape. -/
def decodeEscape : List Char → Option (Char × List Char)
  | [] => none
  | e :: rest =>
    if e = '"' then some ('"', rest)
    else if e = '\\' then some ('\\', rest)
    else if e = 'b' then some ('\x08', rest)
    else if e = 't' then some ('\x09', rest)
    else if e = 'n' then some ('\x0a', rest)
    else if e = 'f' then some ('\x0c', rest)
    else if e = 'r' then some ('\x0d', rest)
    else if e = 'u' then decodeHex4 rest
    else none

theorem decodeHex4_length {r : List Char} {d : Char} {r2 : List Char}
    (h : decodeHex4 r = some (d, r2)) : r2.length + 4 = r.length := by
  match r with
  | [] | [_] | [_, _] | [_, _, _] => simp [decodeHex4] at h
  | h1 :: h2 :: h3 :: h4 :: rest =>
    simp only [decodeHex4] at h
    cases e1 : hexDigitVal? h1 <;> cases e2 : hexDigitVal? h2 <;>
      cases e3 : hexDigitVal? h3 <;> cases e4 : hexDigitVal? h4 <;>
      simp [e1, e2, e3, e4] at h
    simp [h.2]

theorem decodeEscape_length {r : List Char} {d : Char} {r2 : List Char}
    (h : decodeEscape r = some (d, r2)) : r2.length < r.length := by
  match r with
  | [] => simp [decodeEscape] at h
  | e :: rest =>
    simp only [decodeEscape] at h
    split_ifs at h with h1 h2 h3 h4 h5 h6 h7 h8
    · cases h; simp
    · cases h; simp
    · cases h; simp
    · cases h; simp
    · cases h; simp
    · cases h; simp
    · cases h; simp
    · have := decodeHex4_length h
      simp only [List.length_cons]
      omega

/-- Scanner for a JSON string body: consumes characters up to the closing
(unescaped) quote, decoding escapes, and returns the decoded body together
with the input remaining after the quote.  This is `JSON.parse`'s string
scanning, restricted to the lowercase escapes `JSON.stringify` emits. -/
def unescapeScan (l : List Char) : Option (List Char × List Char) :=
  match l with
  | [] => none
  | c :: rest =>
    if c = '"' then some ([], rest)
    else if c = '\\' then
      match hde : decodeEscape rest with
      | none => none
      | some (d, rest2) => consScan d (unescapeScan rest2)
    else consScan c (unescapeScan rest)
termination_by l.length
decreasing_by
  · have := decodeEscape_length hde
    simp only [List.length_cons]
    omega
  · simp

/-- The `(key, namespace)` pair addressing one entry of the shared map
(`InternalKey`, memory-key-value-storage.ts lines 15-18). `ns` stands for
the source's `namespace` field, which is a reserved word here. -/
structure InternalKey where
  key : String
  ns : String
deriving Repr, DecidableEq

/-- Embedding of `serializeInternalKey` (lines 30-35):
`JSON.stringify({key, namespace})`, i.e. the text
`{"key":"<escaped key>","namespace":"<escaped namespace>"}`. -/
def serializeInternalKey (ik : InternalKey) : String :=
  ⟨"\x7b\"key\":\"".data ++ escapeChars ik.key.data
    ++ "\",\"namespace\":\"".data ++ escapeChars ik.ns.data ++ "\"\x7d".data⟩

/-- Consume an expected literal from the front of the input. -/
def dropLit : List Char → List Char → Option (List Char)
  | [], l => some l
  | _ :: _, [] => none
  | p :: ps, c :: cs => if p = c then dropLit ps cs else none

/-- Embedding of `deserializeInternalKey` (lines 37-39): `JSON.parse` of a
physical map key followed by reading its `key`/`namespace` fields, modelled
on the exact shape `serializeInternalKey` produces (on other JSON texts the
source's `JSON.parse` is more lenient, and on non-JSON text it throws; both
are outside the serializer's image, which is all the round-trip and
injectivity results below use). -/
def deserializeInternalKey (s : String) : Option InternalKey :=
  match dropLit "\x7b\"key\":\"".data s.data with
  | none => none
  | some l1 =>
    match unescapeScan l1 with
    | none => none
    | some (k, l2) =>
      match dropLit ",\"namespace\":\"".data l2 with
      | none => none
      | some l3 =>
        match unescapeScan l3 with
        | none => none
        | some (n, l4) => if l4 = ['\x7d'] then some ⟨⟨k⟩, ⟨n⟩⟩ else none

theorem hexDigitVal?_hexDigitChar (m : Nat) (h : m < 16) :
    hexDigitVal? (hexDigitChar m) = some m := by
  interval_cases m <;> decide

theorem unescapeScan_quote (rest : List Char) :
    unescapeScan ('"' :: rest) = some ([], rest) := by
  rw [unescapeScan]
  simp

theorem unescapeScan_plain (c : Char) (rest : List Char)
    (h1 : c ≠ '"') (h2 : c ≠ '\\') :
    unescapeScan (c :: rest) = consScan c (unescapeScan rest) := by
  rw [unescapeScan]
  simp [h1, h2]

theorem unescapeScan_esc_quote (rest : List Char) :
    unescapeScan ('\\' :: '"' :: rest) = consScan '"' (unescapeScan rest) := by
  rw [unescapeScan]
  rfl

theorem unescapeScan_esc_bs (rest : List Char) :
    unescapeScan ('\\' :: '\\' :: rest) = consScan '\\' (unescapeScan rest) := by
  rw [unescapeScan]
  rfl

theorem unescapeScan_esc_b (rest : List Char) :
    unescapeScan ('\\' :: 'b' :: rest) = consScan '\x08' (unescapeScan rest) := by
  rw [unescapeScan]
  rfl

theorem unescapeScan_esc_t (rest : List Char) :
    unescapeScan ('\\' :: 't' :: rest) = consScan '\x09' (unescapeScan rest) := by
  rw [unescapeScan]
  rfl

theorem unescapeScan_esc_n (rest : List Char) :
    unescapeScan ('\\' :: 'n' :: rest) = consScan '\x0a' (unescapeScan rest) := by
  rw [unescapeScan]
  rfl

theorem unescapeScan_esc_f (rest : List Char) :
    unescapeScan ('\\' :: 'f' :: rest) = consScan '\x0c' (unescapeScan rest) := by
  rw [unescapeScan]
  rfl

theorem unescapeScan_esc_r (rest : List Char) :
    unescapeScan ('\\' :: 'r' :: rest) = consScan '\x0d' (unescapeScan rest) := by
  rw [unescapeScan]
  rfl

theorem unescapeScan_esc_u (h1 h2 h3 h4 : Char) (v1 v2 v3 v4 : Nat)
    (rest : List Char)
    (e1 : hexDigitVal? h1 = some v1) (e2 : hexDigitVal? h2 = some v2)
    (e3 : hexDigitVal? h3 = some v3) (e4 : hexDigitVal? h4 = some v4) :
    unescapeScan ('\\' :: 'u' :: h1 :: h2 :: h3 :: h4 :: rest) =
      consScan (Char.ofNat (((v1 * 16 + v2) * 16 + v3) * 16 + v4)) (unescapeScan rest) := by
  rw [unescapeScan]
  have hd : decodeEscape ('u' :: h1 :: h2 :: h3 :: h4 :: rest)
      = some (Char.ofNat (((v1 * 16 + v2) * 16 + v3) * 16 + v4), rest) := by
    simp [decodeEscape, decodeHex4, e1, e2, e3, e4]
  rw [if_neg (by decide : ¬ ('\\' = '"')), if_pos rfl]
  split
  · rename_i heq
    rw [hd] at heq
    cases heq
  · rename_i d rest2 heq
    rw [hd] at heq
    cases heq
    rfl

theorem unescapeScan_escape (s rest : List Char) :
    unescapeScan (escapeChars s ++ '"' :: rest) = some (s, rest) := by
  induction s with
  | nil => simp [escapeChars, unescapeScan_quote]
  | cons c cs ih =>
      have hstep : escapeChars (c :: cs) = escapeChar c ++ escapeChars cs := by
        simp [escapeChars]
      rw [hstep, List.append_assoc]
      by_cases hq : c = '"'
      · subst hq
        simp [escapeChar, unescapeScan_esc_quote, ih, consScan]
      · by_cases hb : c = '\\'
        · subst hb
          simp [escapeChar, unescapeScan_esc_bs, ih, consScan]
        · by_cases h08 : c = '\x08'
          · subst h08
            simp [escapeChar, unescapeScan_esc_b, ih, consScan]
          · by_cases h09 : c = '\x09'
            · subst h09
              simp [escapeChar, unescapeScan_esc_t, ih, consScan]
            · by_cases h0a : c = '\x0a'
              · subst h0a
                simp [escapeChar, unescapeScan_esc_n, ih, consScan]
              · by_cases h0c : c = '\x0c'
                · subst h0c
                  simp [escapeChar, unescapeScan_esc_f, ih, consScan]
                · by_cases h0d : c = '\x0d'
                  · subst h0d
                    simp [escapeChar, unescapeScan_esc_r, ih, consScan]
                  · by_cases hctl : c.toNat < 32
                    · have hdiv : c.toNat / 16 < 16 := by omega
                      have hmod : c.toNat % 16 < 16 := Nat.mod_lt _ (by norm_num)
                      have hval : ((0 * 16 + 0) * 16 + c.toNat / 16) * 16 + c.toNat % 16
                          = c.toNat := by
                        have := Nat.div_add_mod c.toNat 16
                        omega
                      simp only [escapeChar, if_neg hq, if_neg hb, if_neg h08, if_neg h09,
                        if_neg h0a, if_neg h0c, if_neg h0d, if_pos hctl]
                      simp only [List.cons_append, List.nil_append]
                      rw [unescapeScan_esc_u '0' '0' _ _ 0 0 (c.toNat / 16) (c.toNat % 16)
                        _ (by decide) (by decide)
                        (hexDigitVal?_hexDigitChar _ hdiv) (hexDigitVal?_hexDigitChar _ hmod)]
                      rw [hval, Char.ofNat_toNat, ih]
                      simp [consScan]
                    · simp only [escapeChar, if_neg hq, if_neg hb, if_neg h08, if_neg h09,
                        if_neg h0a, if_neg h0c, if_neg h0d, if_neg hctl]
                      simp only [List.cons_append, List.nil_append]
                      rw [unescapeScan_plain c _ hq hb, ih]
                      simp [consScan]

theorem dropLit_append (p l : List Char) : dropLit p (p ++ l) = some l := by
  induction p with
  | nil => simp [dropLit]
  | cons c cs ih => simp [dropLit, ih]

/-- `deserializeInternalKey` inverts `serializeInternalKey`: the source's
`JSON.parse(JSON.stringify({key, namespace}))` round trip. -/
theorem deserialize_serialize (ik : InternalKey) :
    deserializeInternalKey (serializeInternalKey ik) = some ik := by
  obtain ⟨k, n⟩ := ik
  show deserializeInternalKey
      ⟨"\x7b\"key\":\"".data ++ escapeChars k.data
        ++ "\",\"namespace\":\"".data ++ escapeChars n.data ++ "\"\x7d".data⟩
      = some ⟨k, n⟩
  unfold deserializeInternalKey
  simp only [List.append_assoc, List.cons_append, List.nil_append]
  simp only [dropLit, reduceIte]
  rw [unescapeScan_escape]
  simp only [dropLit, reduceIte]
  rw [unescapeScan_escape]
  simp

/-- The internal key scheme is injective: distinct `(key, namespace)` pairs
occupy distinct slots of the shared physical map. -/
theorem serializeInternalKey_injective :
    Function.Injective serializeInternalKey := by
  intro a b h
  have h2 := congrArg deserializeInternalKey h
  rw [deserialize_serialize, deserialize_serialize] at h2
  exact Option.some_injective _ h2

/-! ## Error taxonomy and the catch-block combinator

`KeyValueStorageError` and its subclasses (`src/unnamed/part_002`) form the
recognized storage-error hierarchy; any other thrown value (driver errors,
`JSON.parse` syntax errors, ...) is a plain runtime error. -/

inductive JsError where
  | runtime (msg : String) : JsError
  | storage (name : String) (msg : String) (cause : Option JsError) : JsError

/-- `error instanceof KeyValueStorageError`: every class of
`src/unnamed/part_002` extends `KeyValueStorageError`. -/
def JsError.isKeyValueStorageError : JsError → Bool
  | .storage _ _ _ => true
  | .runtime _ => false

/-- The catch block wrapped around every `SqliteKeyValueStorage` and
`PostgresKeyValueStorageInternal` method body except `transaction`
(e.g. `src/unnamed/part_001` lines 143-151):

```
catch (error: unknown) {
    if (error instanceof KeyValueStorageError) { throw error; }
    throw new UnexpectedKeyValueStorageError(`Unexpected error ...`, error);
}
```

The interpolated message text is abbreviated here; it carries no semantics. -/
def wrapStorageErrors {α : Type} (r : Except JsError α) : Except JsError α :=
  match r with
  | .ok a => .ok a
  | .error e =>
      if e.isKeyValueStorageError then .error e
      else .error (.storage "UnexpectedKeyValueStorageError"
        "Unexpected error occured" (some e))

/-! ## The in-memory backend

`MemoryKeyValueStorage` over its shared `Map<string, string>`.  The map is
modelled as an insertion-ordered association list; physical keys are the
serialized internal keys, and the value column is modelled by its parsed
`JsonValue` (the `JSON.stringify`/`JSON.parse` value codec is a bijection on
JSON-serializable values, and `getInternal`'s `if (value)` truthiness test is
a presence test because `JSON.stringify` output is a non-empty string).
`JsRecord JsonValue` coincides with the JS `Map` model, so `setEntry` /
`getEntry` double as `Map.prototype.set` / `Map.prototype.get`; JS `Map.set`
updates an existing key in place and otherwise appends, exactly as
`setEntry`. -/

abbrev MemState : Type := List (String × JsonValue)

/-- `Map.prototype.delete`, dropping the entry if present. -/
def mapDelete (m : MemState) (k : String) : MemState :=
  m.filter (fun p => ¬ p.1 = k)

/-- `getInternal` (lines 41-47): `map.get(serializeInternalKey(key))`, parsed
when present, `null` when absent. -/
def getInternal (m : MemState) (ik : InternalKey) : JsonValue :=
  match getEntry m (serializeInternalKey ik) with
  | some v => v
  | none => JsonValue.null

/-- `hasInternal` (lines 49-51): `map.has(serializeInternalKey(key))`. -/
def hasInternal (m : MemState) (ik : InternalKey) : Bool :=
  (getEntry m (serializeInternalKey ik)).isSome

/-- `setInternal` (lines 57-59). -/
def setInternal (m : MemState) (ik : InternalKey) (v : JsonValue) : MemState :=
  setEntry m (serializeInternalKey ik) v

/-- Specification-level observer: the stored value of `(ns, k)`, i.e.
`map.get(JSON.stringify({key: k, namespace: ns}))`. -/
def memLookup (m : MemState) (ns k : String) : Option JsonValue :=
  getEntry m (serializeInternalKey ⟨k, ns⟩)

/-- Loop of `clearInternal` (lines 61-68): walk every physical entry,
`JSON.parse` its key (which throws a runtime `SyntaxError` on a key outside
the serializer's image) and delete it when its namespace field matches. -/
def clearLoop (ns : String) : List (String × JsonValue) → MemState → Except JsError MemState
  | [], m => .ok m
  | (pk, _) :: rest, m =>
      match deserializeInternalKey pk with
      | none => .error (.runtime "SyntaxError: JSON.parse")
      | some ik => clearLoop ns rest (if ik.ns = ns then mapDelete m pk else m)

/-- `clearInternal(namespace)` / `clear()` (lines 61-68 and 94-96). -/
def memClear (m : MemState) (ns : String) : Except JsError MemState :=
  clearLoop ns m m

/-- Loop of `sizeInternal` (lines 70-79). -/
def sizeLoop (ns : String) : List (String × JsonValue) → Nat → Except JsError Nat
  | [], acc => .ok acc
  | (pk, _) :: rest, acc =>
      match deserializeInternalKey pk with
      | none => .error (.runtime "SyntaxError: JSON.parse")
      | some ik => sizeLoop ns rest (if ik.ns = ns then acc + 1 else acc)

/-- `sizeInternal(namespace)` / `size()` (lines 70-79 and 98-100). -/
def memSize (m : MemState) (ns : String) : Except JsError Nat :=
  sizeLoop ns m 0

/-- `Symbol.asyncIterator` (lines 81-92): walk the shared map, decode each
physical key, and yield `(key, JSON.parse(value))` for entries of the bound
namespace that are still present (`hasInternal` re-check).  The stream is
collected into a list; a key outside the serializer's image makes
`JSON.parse` throw. -/
def memIterateLoop (m : MemState) (ns : String) :
    List (String × JsonValue) → Except JsError (List (String × JsonValue))
  | [] => .ok []
  | (pk, v) :: rest =>
      match deserializeInternalKey pk with
      | none => .error (.runtime "SyntaxError: JSON.parse")
      | some ik =>
          match memIterateLoop m ns rest with
          | .error e => .error e
          | .ok tail =>
              if ik.ns = ns ∧ hasInternal m ik then .ok ((ik.key, v) :: tail)
              else .ok tail

/-- The full iteration of a `MemoryKeyValueStorage` bound to `ns`. -/
def memIterate (m : MemState) (ns : String) :
    Except JsError (List (String × JsonValue)) :=
  memIterateLoop m ns m

/-- `getMany(keys)` (lines 102-111): one record assignment per requested key,
in order; `getInternal` supplies the stored value or `null`. -/
def memGetMany (m : MemState) (ns : String) (keys : List String) :
    JsRecord JsonValue :=
  keys.foldl (fun rec k => setEntry rec k (getInternal m ⟨k, ns⟩)) []

/-- `key.startsWith(pat)`: plain prefix test. -/
def jsStartsWith (s pat : String) : Bool := pat.data.isPrefixOf s.data

/-- `key.endsWith(pat)`: plain suffix test. -/
def jsEndsWith (s pat : String) : Bool := pat.data.reverse.isPrefixOf s.data.reverse

/-- `key.includes(pat)`: plain substring containment. -/
def jsIncludes (s pat : String) : Bool := decide (pat.data <:+: s.data)

/-- `getStartsWithMany` (lines 133-139): the namespace iteration filtered by
`key.startsWith(keyPrefix)` — a plain prefix test on the raw key. -/
def memGetStartsWithMany (m : MemState) (ns pat : String) :
    Except JsError (List (String × JsonValue)) :=
  (memIterate m ns).map (List.filter (fun p => jsStartsWith p.1 pat))

/-- `getEndsWithMany` (lines 141-147). -/
def memGetEndsWithMany (m : MemState) (ns pat : String) :
    Except JsError (List (String × JsonValue)) :=
  (memIterate m ns).map (List.filter (fun p => jsEndsWith p.1 pat))

/-- `getIncludesMany` (lines 149-153). -/
def memGetIncludesMany (m : MemState) (ns pat : String) :
    Except JsError (List (String × JsonValue)) :=
  (memIterate m ns).map (List.filter (fun p => jsIncludes p.1 pat))

/-- The memory backend's write-time clamp of one value
(`if (settings && typeof value === "number") value = clamp(value, settings)`,
lines 168-170 and 196-198). -/
def memClampValue (settings : Option ClampSettings) (v : JsonValue) : JsonValue :=
  match settings, v with
  | some s, .num x => .num (clamp x s)
  | _, v => v

/-- One iteration of the `insertIfNotExistsMany` loop (lines 161-178): record
whether the key was absent, and insert (with the write-time clamp) only in
that case. -/
def memInsertStep (ns : String) (settings : Option ClampSettings)
    (acc : MemState × JsRecord Bool) (item : String × JsonValue) :
    MemState × JsRecord Bool :=
  let hasNotKey := ! hasInternal acc.1 ⟨item.1, ns⟩
  let rec2 := setEntry acc.2 item.1 hasNotKey
  if hasNotKey then
    (setInternal acc.1 ⟨item.1, ns⟩ (memClampValue settings item.2), rec2)
  else (acc.1, rec2)

/-- `insertIfNotExistsMany(items, settings?)` (lines 155-181). -/
def memInsertIfNotExistsMany (m : MemState) (ns : String)
    (items : List (String × JsonValue)) (settings : Option ClampSettings) :
    MemState × JsRecord Bool :=
  items.foldl (memInsertStep ns settings) (m, [])

/-- One iteration of the `updateIfExistsMany` loop (lines 189-206). -/
def memUpdateStep (ns : String) (settings : Option ClampSettings)
    (acc : MemState × JsRecord Bool) (item : String × JsonValue) :
    MemState × JsRecord Bool :=
  let hasKey := hasInternal acc.1 ⟨item.1, ns⟩
  let rec2 := setEntry acc.2 item.1 hasKey
  if hasKey then
    (setInternal acc.1 ⟨item.1, ns⟩ (memClampValue settings item.2), rec2)
  else (acc.1, rec2)

/-- `updateIfExistsMany(items, settings?)` (lines 183-209). -/
def memUpdateIfExistsMany (m : MemState) (ns : String)
    (items : List (String × JsonValue)) (settings : Option ClampSettings) :
    MemState × JsRecord Bool :=
  items.foldl (memUpdateStep ns settings) (m, [])

/-- One iteration of the `removeIfExistsMany` loop (lines 215-221):
`map.delete` per key, whose boolean result (deleted or not) is recorded. -/
def memRemoveStep (ns : String) (acc : MemState × JsRecord Bool)
    (k : String) : MemState × JsRecord Bool :=
  let hasKey := hasInternal acc.1 ⟨k, ns⟩
  (mapDelete acc.1 (serializeInternalKey ⟨k, ns⟩), setEntry acc.2 k hasKey)

/-- `removeIfExistsMany(keys)` (lines 211-223). -/
def memRemoveIfExistsMany (m : MemState) (ns : String) (keys : List String) :
    MemState × JsRecord Bool :=
  keys.foldl (memRemoveStep ns) (m, [])

/-! ## The SQL backends

`SqliteKeyValueStorage` (`src/unnamed/part_001`) over the table

```
CREATE TABLE IF NOT EXISTS key_value (
  namespace TEXT NOT NULL, key TEXT NOT NULL, value TEXT NOT NULL,
  PRIMARY KEY (key, namespace));
```

The table is modelled as its list of rows in insertion (rowid) order, with
the JSON text of the value column modelled by its parsed `JsonValue` (every
value this backend writes is `json_quote`/parameter output, hence valid JSON
text; the unreachable `ELSE ''` branch of the `CASE` update expression is
represented by `.str ""`).  `PostgresKeyValueStorageInternal` builds the very
same queries for every operation modelled here (its `getMany`, `hasMany`,
`clear`, `size`, scans, `updateIfExistsMany` and `removeIfExistsMany` are
line-for-line identical); where the Postgres file differs — the
`insertIfNotExistsMany` value expression — it is modelled separately
below. -/

structure SqlRow where
  ns : String
  key : String
  value : JsonValue

/-- One shared `key_value` table. -/
abbrev SqlTable : Type := List SqlRow

/-- `WHERE namespace = ? AND key = ?` hit on one row. -/
def rowMatches (ns k : String) (r : SqlRow) : Bool := r.ns = ns && r.key = k

/-- Specification-level observer: the value stored under `(ns, k)` (the
first matching row; under the `(key, namespace)` primary key there is at
most one). -/
def sqlLookup (tbl : SqlTable) (ns k : String) : Option JsonValue :=
  (tbl.find? (rowMatches ns k)).map (fun r => r.value)

/-- `clear()` (`src/unnamed/part_001` lines 58-73):
`DELETE FROM key_value WHERE namespace = ?`. -/
def sqliteClear (tbl : SqlTable) (ns : String) : SqlTable :=
  tbl.filter (fun r => ¬ r.ns = ns)

/-- `size()` (lines 75-92): `SELECT count(namespace) WHERE namespace = ?`. -/
def sqliteSize (tbl : SqlTable) (ns : String) : Nat :=
  (tbl.filter (fun r => r.ns = ns)).length

/-- `Symbol.asyncIterator` (lines 37-56): the streamed
`SELECT key, value WHERE namespace = ?`, with values `JSON.parse`d. -/
def sqliteIterate (tbl : SqlTable) (ns : String) : List (String × JsonValue) :=
  (tbl.filter (fun r => r.ns = ns)).map (fun r => (r.key, r.value))

/-- `getMany(keys)` (lines 124-152): empty input short-circuits to `{}`;
otherwise the backend selects every `(key, value)` row of the namespace —
with no key filter — and builds
`Object.fromEntries([...keys.map(k => [k, null]), ...rows])`. -/
def sqliteGetMany (tbl : SqlTable) (ns : String) (keys : List String) :
    JsRecord JsonValue :=
  if keys = [] then []
  else
    fromEntries
      (keys.map (fun k => (k, JsonValue.null)) ++
        (tbl.filter (fun r => r.ns = ns)).map (fun r => (r.key, r.value)))

/-- `hasMany(keys)` (lines 94-122): same shape with `false`/`true` marks. -/
def sqliteHasMany (tbl : SqlTable) (ns : String) (keys : List String) :
    JsRecord Bool :=
  if keys = [] then []
  else
    fromEntries
      (keys.map (fun k => (k, false)) ++
        (tbl.filter (fun r => r.ns = ns)).map (fun r => (r.key, true)))

/-- ASCII case folding: SQLite's default `LIKE` is case-insensitive for the
ASCII range. -/
def asciiLower (c : Char) : Char :=
  if 65 ≤ c.toNat ∧ c.toNat ≤ 90 then Char.ofNat (c.toNat + 32) else c

/-- SQL `LIKE` pattern matching: `%` matches any sequence, `_` any single
character, every other pattern character matches itself (no `ESCAPE` clause
is used anywhere in the source). -/
def likeMatch : List Char → List Char → Bool
  | [], [] => true
  | [], _ :: _ => false
  | '%' :: ps, t =>
      likeMatch ps t ||
        (match t with
         | [] => false
         | _ :: ts => likeMatch ('%' :: ps) ts)
  | '_' :: ps, t =>
      (match t with
       | [] => false
       | _ :: ts => likeMatch ps ts)
  | p :: ps, t =>
      (match t with
       | [] => false
       | c :: ts => p = c && likeMatch ps ts)
termination_by p t => (t.length, p.length)
decreasing_by
  · apply Prod.Lex.right
    simp_arith
  · apply Prod.Lex.left
    simp_arith
  · apply Prod.Lex.left
    simp_arith
  · apply Prod.Lex.left
    simp_arith

/-- SQLite `key LIKE pattern` (default `PRAGMA case_sensitive_like = OFF`:
ASCII-case-insensitive). -/
def sqliteLike (pat txt : String) : Bool :=
  likeMatch (pat.data.map asciiLower) (txt.data.map asciiLower)

/-- `getStartsWithMany(keyPrefix)` (lines 188-196): the streamed
`SELECT ... WHERE namespace = ? AND key LIKE keyPrefix + '%'` — the caller's
pattern is embedded into the `LIKE` pattern with no escaping. -/
def sqliteGetStartsWithMany (tbl : SqlTable) (ns pat : String) :
    List (String × JsonValue) :=
  (tbl.filter (fun r => r.ns = ns && sqliteLike (pat ++ "%") r.key)).map
    (fun r => (r.key, r.value))

/-- `getEndsWithMany(keySuffix)` (lines 198-206): `LIKE '%' + keySuffix`. -/
def sqliteGetEndsWithMany (tbl : SqlTable) (ns pat : String) :
    List (String × JsonValue) :=
  (tbl.filter (fun r => r.ns = ns && sqliteLike ("%" ++ pat) r.key)).map
    (fun r => (r.key, r.value))

/-- `getIncludesMany(key)` (lines 208-214): `LIKE '%' + key + '%'`. -/
def sqliteGetIncludesMany (tbl : SqlTable) (ns pat : String) :
    List (String × JsonValue) :=
  (tbl.filter (fun r => r.ns = ns && sqliteLike ("%" ++ pat ++ "%") r.key)).map
    (fun r => (r.key, r.value))

/-- One row of the bulk `INSERT ... ON CONFLICT (key, namespace) DO NOTHING
RETURNING key`: a row conflicting with the table (or with a row inserted
earlier in the same statement) is skipped, otherwise it is appended and its
key is returned. -/
def sqliteInsertRow (ns : String) (settings : Option ClampSettings)
    (acc : SqlTable × List String) (item : String × JsonValue) :
    SqlTable × List String :=
  if acc.1.any (rowMatches ns item.1) then acc
  else (acc.1 ++ [⟨ns, item.1, sqlClampJsonValue item.2 settings⟩],
    acc.2 ++ [item.1])

/-- `insertIfNotExistsMany(items, settings?)` (lines 251-296): empty input
short-circuits; otherwise one bulk
`INSERT ... VALUES ... ON CONFLICT (key, namespace) DO NOTHING RETURNING key`
whose value expressions are `sqlClampJsonValue`.  Conflicting rows (against
the table or an earlier row of the same statement) are skipped; `RETURNING`
lists the keys actually inserted, and the result record marks every input
key `false` and then every returned key `true`. -/
def sqliteInsertIfNotExistsMany (tbl : SqlTable) (ns : String)
    (items : List (String × JsonValue)) (settings : Option ClampSettings) :
    SqlTable × JsRecord Bool :=
  if items.isEmpty then (tbl, [])
  else
    let folded := items.foldl (sqliteInsertRow ns settings) (tbl, [])
    (folded.1,
      fromEntries
        (items.map (fun p => (p.1, false)) ++ folded.2.map (fun k => (k, true))))

/-- The per-row value of the `CASE key WHEN k1 THEN v1 ... ELSE '' END`
expression built by `updateIfExistsMany`/`insertOrUpdateMany`: SQL `CASE`
takes the first matching `WHEN`. -/
def caseValueFor (items : List (String × JsonValue))
    (settings : Option ClampSettings) (rowKey : String) : JsonValue :=
  match items.find? (fun p => p.1 = rowKey) with
  | some p => sqlClampJsonValue p.2 settings
  | none => .str ""

/-- `updateIfExistsMany(updateValues, settings?)` (lines 298-368): one bulk
`UPDATE key_value SET value = CASE ... END WHERE namespace = ? AND key IN
(keys) RETURNING key`. -/
def sqliteUpdateIfExistsMany (tbl : SqlTable) (ns : String)
    (items : List (String × JsonValue)) (settings : Option ClampSettings) :
    SqlTable × JsRecord Bool :=
  if items.isEmpty then (tbl, [])
  else
    let keys := items.map (fun p => p.1)
    let newTbl := tbl.map (fun r =>
      if r.ns = ns && keys.contains r.key then
        ⟨r.ns, r.key, caseValueFor items settings r.key⟩
      else r)
    let returned :=
      (tbl.filter (fun r => r.ns = ns && keys.contains r.key)).map
        (fun r => r.key)
    (newTbl,
      fromEntries
        (items.map (fun p => (p.1, false)) ++ returned.map (fun k => (k, true))))

/-- `removeIfExistsMany(keys)` (lines 448-478): one bulk
`DELETE ... WHERE namespace = ? AND key IN (keys) RETURNING key`. -/
def sqliteRemoveIfExistsMany (tbl : SqlTable) (ns : String)
    (keys : List String) : SqlTable × JsRecord Bool :=
  if keys = [] then (tbl, [])
  else
    let returned :=
      (tbl.filter (fun r => r.ns = ns && keys.contains r.key)).map
        (fun r => r.key)
    (tbl.filter (fun r => ¬ (r.ns = ns && keys.contains r.key)),
      fromEntries
        (keys.map (fun k => (k, false)) ++ returned.map (fun k => (k, true))))

/-! ## The Postgres `insertIfNotExistsMany` value expression

`PostgresKeyValueStorageInternal.insertIfNotExistsMany` (lines 259-305)
builds its insert values as

```
value: PostgresKeyValueStorageInternal.sqlClamp(
    sql`${JSON.stringify(value)}`, settings)
```

— `sqlClamp` applied directly to the serialized JSON text, *without* the
`sqlClampJsonValue` numeric-type dispatch that the very same file's
`updateIfExistsMany` and `insertOrUpdateMany` use.  The resulting SQL is
`least`/`greatest` over one parameter holding the JSON text and one holding
the numeric bound; both reach Postgres as untyped parameters of unknown
type, which it resolves at type `text`, so `least`/`greatest` compare the
two strings (byte-wise in the C collation, which agrees with Lean's `String`
order on ASCII).  `jsonStringify` below is `JSON.stringify`. -/

/-- String rendering of an escaped JSON string literal. -/
def jsonQuoteString (s : String) : String :=
  ⟨'"' :: (escapeChars s.data ++ ['"'])⟩

/-- `JSON.stringify` on the modelled values. -/
def jsonStringify : JsonValue → String
  | .null => "null"
  | .bool b => cond b "true" "false"
  | .num n => toString n
  | .str s => jsonQuoteString s
  | .arr items =>
      "[" ++ String.intercalate ","
        (items.attach.map (fun x => jsonStringify x.1)) ++ "]"
  | .obj fields =>
      "\x7b" ++ String.intercalate ","
        (fields.attach.map
          (fun x => jsonQuoteString x.1.1 ++ ":" ++ jsonStringify x.1.2)) ++ "\x7d"
decreasing_by
  · have := List.sizeOf_lt_of_mem x.2
    simp_arith at this ⊢
    omega
  · rcases x with ⟨⟨a, b⟩, hmem⟩
    have := List.sizeOf_lt_of_mem hmem
    simp_arith at this ⊢
    omega

/-- Byte-wise (C-collation) lexicographic order on text. -/
def charListLe : List Char → List Char → Bool
  | [], _ => true
  | _ :: _, [] => false
  | a :: as, b :: bs =>
      if a < b then true else if b < a then false else charListLe as bs

/-- Postgres `least` at type `text`. -/
def pgTextLeast (a b : String) : String :=
  if charListLe a.data b.data then a else b

/-- Postgres `greatest` at type `text`. -/
def pgTextGreatest (a b : String) : String :=
  if charListLe a.data b.data then b else a

/-- The value actually stored by the Postgres `insertIfNotExistsMany` path
for one item: the `sqlClamp` branch structure (lines 224-238) applied to the
JSON text of the value, with the numeric bounds rendered as text parameters
and `least`/`greatest` comparing text. -/
def pgInsertStoredValue (v : JsonValue) (settings : Option ClampSettings) : String :=
  let txt := jsonStringify v
  match (settings.getD ⟨none, none⟩).max?, (settings.getD ⟨none, none⟩).min? with
  | some mx, some mn =>
      if mx ≠ 0 ∧ mn ≠ 0 then
        pgTextLeast (pgTextGreatest txt (toString mn)) (toString mx)
      else if mn ≠ 0 then pgTextGreatest txt (toString mn)
      else if mx ≠ 0 then pgTextLeast txt (toString mx)
      else txt
  | none, some mn => if mn ≠ 0 then pgTextGreatest txt (toString mn) else txt
  | some mx, none => if mx ≠ 0 then pgTextLeast txt (toString mx) else txt
  | none, none => txt

/-! ## Claim theorems -/

/-- C10: in every backend a clamp bound equal to `0` is treated as if the
bound were absent, because the host-language `clamp` and both SQL clamp
builders test the bounds for truthiness rather than presence: for every
numeric value `v`, clamping with `{max: 0}` leaves `v` unchanged even when
`v > 0`, and clamping with `{min: 0}` leaves `v` unchanged even when
`v < 0`; consequently the write-time value transformations of the memory
backend (`memClampValue`) and of the SQLite value expression
(`sqlClampJsonValue`) store `v` unchanged under those settings. -/
theorem c10_zero_bound_ignored (v : Int) :
    clamp v ⟨none, some 0⟩ = v ∧ clamp v ⟨some 0, none⟩ = v ∧
    sqliteSqlClamp v ⟨none, some 0⟩ = v ∧ sqliteSqlClamp v ⟨some 0, none⟩ = v ∧
    postgresSqlClamp v ⟨none, some 0⟩ = v ∧ postgresSqlClamp v ⟨some 0, none⟩ = v ∧
    memClampValue (some ⟨none, some 0⟩) (.num v) = .num v ∧
    memClampValue (some ⟨some 0, none⟩) (.num v) = .num v ∧
    sqlClampJsonValue (.num v) (some ⟨none, some 0⟩) = .num v ∧
    sqlClampJsonValue (.num v) (some ⟨some 0, none⟩) = .num v := by
  refine ⟨?_, ?_, ?_, ?_, ?_, ?_, ?_, ?_, ?_, ?_⟩ <;>
    simp [clamp, sqliteSqlClamp, postgresSqlClamp, memClampValue, sqlClampJsonValue]

/-- C2 counterexample: with both bounds given as `{min: 10, max: 5}` and the
numeric value `1` (so `v < max < min`), the claimed formula
`min(max(v, min), max)` yields `5`, but the host-language clamp used by the
memory backend tests the `max` bound first and then applies the `min` bound,
storing `10`. -/
theorem c2_counterexample :
    (memInsertIfNotExistsMany [] "global" [("a", .num 1)]
        (some ⟨some 10, some 5⟩)).1
      = [(serializeInternalKey ⟨"a", "global"⟩, .num 10)] ∧
    clamp 1 ⟨some 10, some 5⟩ = 10 ∧
    min (max (1 : Int) 10) 5 = 5 := by
  refine ⟨rfl, by decide, by decide⟩

/-- C2 amended: for nonzero bounds `min` and `max`, both SQL clamp builders
compute `min(max(v, min), max)` exactly as claimed; the host-language
`clamp` used by the memory backend agrees with that formula whenever
`min ≤ max`, but when the bounds are misconfigured (`max < min`) it applies
the `max` bound first and otherwise the `min` bound, so for `v ≤ max < min`
it returns `min`, not `max`. -/
theorem c2_amended (v mn mx : Int) (hmn : mn ≠ 0) (hmx : mx ≠ 0) :
    sqliteSqlClamp v ⟨some mn, some mx⟩ = min (max v mn) mx ∧
    postgresSqlClamp v ⟨some mn, some mx⟩ = min (max v mn) mx ∧
    (mn ≤ mx → clamp v ⟨some mn, some mx⟩ = min (max v mn) mx) ∧
    (mx < mn → v ≤ mx → clamp v ⟨some mn, some mx⟩ = mn) := by
  refine ⟨?_, ?_, ?_, ?_⟩
  · simp [sqliteSqlClamp, hmn, hmx]
  · simp [postgresSqlClamp, hmn, hmx]
  · intro h
    simp only [clamp]
    split_ifs with h1 h2 <;> omega
  · intro h hv
    simp only [clamp]
    split_ifs with h1 h2 <;> omega

theorem c2_amended_witness :
    (10 : Int) ≠ 0 ∧ (5 : Int) ≠ 0 ∧
    (sqliteSqlClamp 1 ⟨some 10, some 5⟩ = min (max (1 : Int) 10) 5 ∧
     postgresSqlClamp 1 ⟨some 10, some 5⟩ = min (max (1 : Int) 10) 5 ∧
     ((10 : Int) ≤ 5 → clamp 1 ⟨some 10, some 5⟩ = min (max (1 : Int) 10) 5) ∧
     ((5 : Int) < 10 → (1 : Int) ≤ 5 → clamp 1 ⟨some 10, some 5⟩ = 10)) :=
  ⟨by decide, by decide, c2_amended 1 10 5 (by decide) (by decide)⟩

/-- C3: at the failing input — inserting the non-numeric value `"abc"` with
settings `{min: 10}` through the Postgres `insertIfNotExistsMany` path — the
value expression (raw `sqlClamp` over the JSON text, with no numeric type
dispatch) stores the text `10` instead of the unchanged `"abc"`; the SQLite
insert expression (`sqlClampJsonValue`) and the memory backend's write-time
clamp leave the same value unchanged, as the claim states. -/
theorem c3_postgres_insert_clamps_non_numeric :
    pgInsertStoredValue (.str "abc") (some ⟨some 10, none⟩) = "10" ∧
    jsonStringify (.str "abc") = "\"abc\"" ∧
    sqlClampJsonValue (.str "abc") (some ⟨some 10, none⟩) = .str "abc" ∧
    memClampValue (some ⟨some 10, none⟩) (.str "abc") = .str "abc" := by
  have hjs : jsonStringify (.str "abc") = "\"abc\"" := by
    rw [jsonStringify]
    decide
  refine ⟨?_, hjs, rfl, rfl⟩
  simp only [pgInsertStoredValue, hjs]
  decide

/-- C1: at the failing input the SQL `getMany` leaks unrequested keys. With
the namespace `global` holding keys `a` and `b`, `getMany(["a"])` on the
SQLite/Postgres implementation (which selects every row of the namespace and
merges all of them into the result record) returns a record that also has an
entry for the unrequested key `b`; the memory backend's record has none. -/
theorem c1_sql_getMany_leaks_unrequested_keys :
    getEntry (sqliteGetMany [⟨"global", "a", .num 1⟩, ⟨"global", "b", .num 2⟩]
        "global" ["a"]) "b" = some (.num 2) ∧
    ¬ ("b" ∈ (["a"] : List String)) ∧
    getEntry (memGetMany
        [(serializeInternalKey ⟨"a", "global"⟩, .num 1),
         (serializeInternalKey ⟨"b", "global"⟩, .num 2)]
        "global" ["a"]) "b" = none := by
  refine ⟨rfl, by decide, rfl⟩

/-- C4: at the failing input the SQL pattern scans give `%` wildcard
meaning.  With the namespace `global` holding only the key `ab`,
`getStartsWithMany("a%")` on the SQLite implementation builds
`key LIKE 'a%%'` with no escaping and yields the entry `("ab", 1)`, although
`"ab"` does not start with the plain string `"a%"`; the memory backend's
plain-prefix filter yields nothing. -/
theorem c4_sqlite_like_wildcards :
    sqliteGetStartsWithMany [⟨"global", "ab", .num 1⟩] "global" "a%"
      = [("ab", .num 1)] ∧
    jsStartsWith "ab" "a%" = false ∧
    memGetStartsWithMany [(serializeInternalKey ⟨"ab", "global"⟩, .num 1)]
      "global" "a%" = .ok [] := by
  refine ⟨?_, by decide, ?_⟩
  · have hlike : sqliteLike "a%%" "ab" = true := by
      simp only [sqliteLike]
      rw [show ("a%%".data.map asciiLower) = ['a', '%', '%'] by decide]
      rw [show ("ab".data.map asciiLower) = ['a', 'b'] by decide]
      simp [likeMatch]
    simp [sqliteGetStartsWithMany, hlike]
  · simp only [memGetStartsWithMany, memIterate, memIterateLoop,
      deserialize_serialize]
    simp [hasInternal, getEntry, List.find?, jsStartsWith, List.isPrefixOf,
      List.filter, Except.map]

/-! ## Lemmas about the memory backend's batch loops -/

theorem serializeInternalKey_ne {ik ik' : InternalKey} (h : ik ≠ ik') :
    serializeInternalKey ik ≠ serializeInternalKey ik' :=
  fun he => h (serializeInternalKey_injective he)

theorem memLookup_setInternal (m : MemState) (ik ik' : InternalKey) (v : JsonValue) :
    getEntry (setInternal m ik v) (serializeInternalKey ik') =
      if ik = ik' then some v else getEntry m (serializeInternalKey ik') := by
  unfold setInternal
  rw [getEntry_setEntry]
  by_cases h : ik = ik'
  · simp [h]
  · simp [h, serializeInternalKey_ne h]

theorem getEntry_mapDelete (m : MemState) (k q : String) :
    getEntry (mapDelete m k) q = if k = q then none else getEntry m q := by
  induction m with
  | nil => by_cases h : k = q <;> simp [mapDelete, getEntry, List.find?, h]
  | cons p rest ih =>
      obtain ⟨pk, pv⟩ := p
      by_cases hpk : pk = k <;> by_cases hq : pk = q <;>
        by_cases hkq : k = q <;>
        simp_all [mapDelete, List.filter_cons, getEntry, List.find?]

theorem memInsertStep_state_frame (ns : String) (s : Option ClampSettings)
    (acc : MemState × JsRecord Bool) (item : String × JsonValue)
    (ik : InternalKey) (h : ik ≠ ⟨item.1, ns⟩) :
    getEntry (memInsertStep ns s acc item).1 (serializeInternalKey ik) =
      getEntry acc.1 (serializeInternalKey ik) := by
  simp only [memInsertStep]
  split
  · rw [memLookup_setInternal, if_neg (fun he => h he.symm)]
  · rfl

theorem memUpdateStep_state_frame (ns : String) (s : Option ClampSettings)
    (acc : MemState × JsRecord Bool) (item : String × JsonValue)
    (ik : InternalKey) (h : ik ≠ ⟨item.1, ns⟩) :
    getEntry (memUpdateStep ns s acc item).1 (serializeInternalKey ik) =
      getEntry acc.1 (serializeInternalKey ik) := by
  simp only [memUpdateStep]
  split
  · rw [memLookup_setInternal, if_neg (fun he => h he.symm)]
  · rfl

theorem memRemoveStep_state_frame (ns : String)
    (acc : MemState × JsRecord Bool) (k : String)
    (ik : InternalKey) (h : ik ≠ ⟨k, ns⟩) :
    getEntry (memRemoveStep ns acc k).1 (serializeInternalKey ik) =
      getEntry acc.1 (serializeInternalKey ik) := by
  simp only [memRemoveStep]
  rw [getEntry_mapDelete]
  simp [serializeInternalKey_ne (fun he => h he.symm)]

theorem memInsert_state_frame (items : List (String × JsonValue)) (ns : String)
    (s : Option ClampSettings) :
    ∀ (acc : MemState × JsRecord Bool) (ik : InternalKey),
    (ik.ns ≠ ns ∨ ik.key ∉ items.map Prod.fst) →
    getEntry (items.foldl (memInsertStep ns s) acc).1 (serializeInternalKey ik) =
      getEntry acc.1 (serializeInternalKey ik) := by
  induction items with
  | nil => intro acc ik _; rfl
  | cons it rest ih =>
      intro acc ik h
      have hne : ik ≠ ⟨it.1, ns⟩ := by
        intro he
        rcases h with h | h
        · exact h (by rw [he])
        · exact h (by simp [he])
      have hrest : ik.ns ≠ ns ∨ ik.key ∉ rest.map Prod.fst := by
        rcases h with h | h
        · exact Or.inl h
        · exact Or.inr (fun hm => h (by simp [hm]))
      simp only [List.foldl_cons]
      rw [ih _ _ hrest, memInsertStep_state_frame _ _ _ _ _ hne]

theorem memUpdate_state_frame (items : List (String × JsonValue)) (ns : String)
    (s : Option ClampSettings) :
    ∀ (acc : MemState × JsRecord Bool) (ik : InternalKey),
    (ik.ns ≠ ns ∨ ik.key ∉ items.map Prod.fst) →
    getEntry (items.foldl (memUpdateStep ns s) acc).1 (serializeInternalKey ik) =
      getEntry acc.1 (serializeInternalKey ik) := by
  induction items with
  | nil => intro acc ik _; rfl
  | cons it rest ih =>
      intro acc ik h
      have hne : ik ≠ ⟨it.1, ns⟩ := by
        intro he
        rcases h with h | h
        · exact h (by rw [he])
        · exact h (by simp [he])
      have hrest : ik.ns ≠ ns ∨ ik.key ∉ rest.map Prod.fst := by
        rcases h with h | h
        · exact Or.inl h
        · exact Or.inr (fun hm => h (by simp [hm]))
      simp only [List.foldl_cons]
      rw [ih _ _ hrest, memUpdateStep_state_frame _ _ _ _ _ hne]

theorem memRemove_state_frame (keys : List String) (ns : String) :
    ∀ (acc : MemState × JsRecord Bool) (ik : InternalKey),
    (ik.ns ≠ ns ∨ ik.key ∉ keys) →
    getEntry (keys.foldl (memRemoveStep ns) acc).1 (serializeInternalKey ik) =
      getEntry acc.1 (serializeInternalKey ik) := by
  induction keys with
  | nil => intro acc ik _; rfl
  | cons k rest ih =>
      intro acc ik h
      have hne : ik ≠ ⟨k, ns⟩ := by
        intro he
        rcases h with h | h
        · exact h (by rw [he])
        · exact h (by simp [he])
      have hrest : ik.ns ≠ ns ∨ ik.key ∉ rest := by
        rcases h with h | h
        · exact Or.inl h
        · exact Or.inr (fun hm => h (by simp [hm]))
      simp only [List.foldl_cons]
      rw [ih _ _ hrest, memRemoveStep_state_frame _ _ _ _ hne]

theorem memInsert_record_frame (items : List (String × JsonValue)) (ns : String)
    (s : Option ClampSettings) :
    ∀ (acc : MemState × JsRecord Bool) (k : String), k ∉ items.map Prod.fst →
    getEntry (items.foldl (memInsertStep ns s) acc).2 k = getEntry acc.2 k := by
  induction items with
  | nil => intro acc k _; rfl
  | cons it rest ih =>
      intro acc k h
      have hk : it.1 ≠ k := by
        intro he; exact h (by simp [he])
      have hrest : k ∉ rest.map Prod.fst := fun hm => h (by simp [hm])
      simp only [List.foldl_cons]
      rw [ih _ _ hrest]
      simp only [memInsertStep]
      split <;> simp [getEntry_setEntry, hk]

theorem memUpdate_record_frame (items : List (String × JsonValue)) (ns : String)
    (s : Option ClampSettings) :
    ∀ (acc : MemState × JsRecord Bool) (k : String), k ∉ items.map Prod.fst →
    getEntry (items.foldl (memUpdateStep ns s) acc).2 k = getEntry acc.2 k := by
  induction items with
  | nil => intro acc k _; rfl
  | cons it rest ih =>
      intro acc k h
      have hk : it.1 ≠ k := by
        intro he; exact h (by simp [he])
      have hrest : k ∉ rest.map Prod.fst := fun hm => h (by simp [hm])
      simp only [List.foldl_cons]
      rw [ih _ _ hrest]
      simp only [memUpdateStep]
      split <;> simp [getEntry_setEntry, hk]

theorem memInsertStep_presence (ns : String) (s : Option ClampSettings)
    (acc : MemState × JsRecord Bool) (item : String × JsonValue)
    (ik : InternalKey) (h : hasInternal acc.1 ik = true) :
    hasInternal (memInsertStep ns s acc item).1 ik = true := by
  simp only [memInsertStep]
  split
  · simp only [hasInternal, setInternal, getEntry_setEntry]
    split
    · simp
    · exact h
  · exact h

theorem memInsert_presence (items : List (String × JsonValue)) (ns : String)
    (s : Option ClampSettings) :
    ∀ (acc : MemState × JsRecord Bool) (ik : InternalKey),
    hasInternal acc.1 ik = true →
    hasInternal (items.foldl (memInsertStep ns s) acc).1 ik = true := by
  induction items with
  | nil => intro acc ik h; exact h
  | cons it rest ih =>
      intro acc ik h
      simp only [List.foldl_cons]
      exact ih _ _ (memInsertStep_presence ns s acc it ik h)

theorem memInsert_member_present (items : List (String × JsonValue)) (ns : String)
    (s : Option ClampSettings) :
    ∀ (acc : MemState × JsRecord Bool) (k : String) (v : JsonValue),
    (k, v) ∈ items →
    hasInternal (items.foldl (memInsertStep ns s) acc).1 ⟨k, ns⟩ = true := by
  induction items with
  | nil => intro acc k v h; cases h
  | cons it rest ih =>
      intro acc k v h
      simp only [List.foldl_cons]
      rcases List.mem_cons.mp h with h | h
      · subst h
        apply memInsert_presence
        simp only [memInsertStep]
        split
        · simp [hasInternal, setInternal, getEntry_setEntry]
        · rename_i hcond
          simp only [Bool.not_eq_true'] at hcond
          simp only [hasInternal] at hcond ⊢
          simp [Option.isSome_iff_ne_none, hcond]
      · exact ih _ _ _ h

theorem memInsert_allPresent_state (items : List (String × JsonValue)) (ns : String)
    (s : Option ClampSettings) :
    ∀ (m : MemState) (rec : JsRecord Bool),
    (∀ p ∈ items, hasInternal m ⟨p.1, ns⟩ = true) →
    (items.foldl (memInsertStep ns s) (m, rec)).1 = m := by
  induction items with
  | nil => intro m rec _; rfl
  | cons it rest ih =>
      intro m rec hall
      have hhead : hasInternal m ⟨it.1, ns⟩ = true := hall it (by simp)
      have hstep : memInsertStep ns s (m, rec) it
          = (m, setEntry rec it.1 (! hasInternal m ⟨it.1, ns⟩)) := by
        simp only [memInsertStep, hhead]
        rfl
      simp only [List.foldl_cons, hstep]
      exact ih _ _ (fun p hp => hall p (by simp [hp]))

theorem memInsert_allPresent_record (items : List (String × JsonValue)) (ns : String)
    (s : Option ClampSettings) :
    ∀ (m : MemState) (rec : JsRecord Bool),
    (∀ p ∈ items, hasInternal m ⟨p.1, ns⟩ = true) →
    ∀ k ∈ items.map Prod.fst,
    getEntry (items.foldl (memInsertStep ns s) (m, rec)).2 k = some false := by
  induction items with
  | nil => intro m rec _ k hk; cases hk
  | cons it rest ih =>
      intro m rec hall k hk
      have hhead : hasInternal m ⟨it.1, ns⟩ = true := hall it (by simp)
      have hstep : memInsertStep ns s (m, rec) it
          = (m, setEntry rec it.1 (! hasInternal m ⟨it.1, ns⟩)) := by
        simp only [memInsertStep, hhead]
        rfl
      simp only [List.foldl_cons, hstep]
      by_cases hkr : k ∈ rest.map Prod.fst
      · exact ih _ _ (fun p hp => hall p (by simp [hp])) k hkr
      · have hkit : k = it.1 := by
          rcases List.mem_map.mp hk with ⟨p, hp, hpe⟩
          rcases List.mem_cons.mp hp with h | h
          · rw [← hpe, h]
          · exact absurd (List.mem_map.mpr ⟨p, h, hpe⟩) hkr
        rw [memInsert_record_frame rest ns s _ k hkr]
        subst hkit
        simp [getEntry_setEntry, hhead]

theorem memInsertStep_record (ns : String) (s : Option ClampSettings)
    (acc : MemState × JsRecord Bool) (item : String × JsonValue) :
    (memInsertStep ns s acc item).2
      = setEntry acc.2 item.1 (! hasInternal acc.1 ⟨item.1, ns⟩) := by
  simp only [memInsertStep]
  split <;> rfl

theorem memUpdateStep_record (ns : String) (s : Option ClampSettings)
    (acc : MemState × JsRecord Bool) (item : String × JsonValue) :
    (memUpdateStep ns s acc item).2
      = setEntry acc.2 item.1 (hasInternal acc.1 ⟨item.1, ns⟩) := by
  simp only [memUpdateStep]
  split <;> rfl

theorem memInsert_facts (items : List (String × JsonValue)) (ns : String)
    (s : Option ClampSettings) :
    ∀ (m : MemState) (rec : JsRecord Bool),
    (items.map Prod.fst).Nodup →
    ∀ k v, (k, v) ∈ items →
    getEntry (items.foldl (memInsertStep ns s) (m, rec)).2 k
        = some (! hasInternal m ⟨k, ns⟩) ∧
    getEntry (items.foldl (memInsertStep ns s) (m, rec)).1
        (serializeInternalKey ⟨k, ns⟩)
      = (if hasInternal m ⟨k, ns⟩ then getEntry m (serializeInternalKey ⟨k, ns⟩)
         else some (memClampValue s v)) := by
  induction items with
  | nil => intro m rec _ k v h; cases h
  | cons it rest ih =>
      intro m rec hnd k v h
      have hnd2 : (it.1 :: rest.map Prod.fst).Nodup := by simpa using hnd
      obtain ⟨hit, hndrest⟩ := List.nodup_cons.mp hnd2
      simp only [List.foldl_cons]
      rcases List.mem_cons.mp h with h | h
      · subst h
        constructor
        · rw [memInsert_record_frame rest ns s _ _ hit]
          rw [memInsertStep_record, getEntry_setEntry, if_pos rfl]
        · rw [memInsert_state_frame rest ns s _ ⟨k, ns⟩ (Or.inr hit)]
          simp only [memInsertStep]
          split
          · rename_i hcond
            simp only [Bool.not_eq_true'] at hcond
            rw [memLookup_setInternal, if_pos rfl, if_neg (by simp [hcond])]
          · rename_i hcond
            simp at hcond
            rw [if_pos hcond]
      · have hkit : it.1 ≠ k := by
          intro he
          exact hit (he ▸ List.mem_map.mpr ⟨(k, v), h, rfl⟩)
        have hne : (⟨k, ns⟩ : InternalKey) ≠ ⟨it.1, ns⟩ := by
          intro he
          exact hkit (congrArg InternalKey.key he).symm
        have hstate := memInsertStep_state_frame ns s (m, rec) it ⟨k, ns⟩ hne
        have hhas : hasInternal (memInsertStep ns s (m, rec) it).1 ⟨k, ns⟩
            = hasInternal m ⟨k, ns⟩ := by
          simp only [hasInternal, hstate]
        obtain ⟨h1, h2⟩ := ih (memInsertStep ns s (m, rec) it).1
          (memInsertStep ns s (m, rec) it).2 hndrest k v h
        refine ⟨?_, ?_⟩
        · rw [← hhas]
          exact h1
        · rw [h2, hhas, hstate]

theorem memUpdateStep_no_create (ns : String) (s : Option ClampSettings)
    (acc : MemState × JsRecord Bool) (item : String × JsonValue)
    (ik : InternalKey)
    (h : getEntry acc.1 (serializeInternalKey ik) = none) :
    getEntry (memUpdateStep ns s acc item).1 (serializeInternalKey ik) = none := by
  by_cases he : ik = ⟨item.1, ns⟩
  · have hhas : hasInternal acc.1 ⟨item.1, ns⟩ = false := by
      rw [← he]
      simp [hasInternal, h]
    simp only [memUpdateStep, hhas]
    simpa using h
  · rw [memUpdateStep_state_frame _ _ _ _ _ he]
    exact h

theorem memUpdate_no_create (items : List (String × JsonValue)) (ns : String)
    (s : Option ClampSettings) :
    ∀ (acc : MemState × JsRecord Bool) (ik : InternalKey),
    getEntry acc.1 (serializeInternalKey ik) = none →
    getEntry (items.foldl (memUpdateStep ns s) acc).1 (serializeInternalKey ik)
      = none := by
  induction items with
  | nil => intro acc ik h; exact h
  | cons it rest ih =>
      intro acc ik h
      simp only [List.foldl_cons]
      exact ih _ _ (memUpdateStep_no_create ns s acc it ik h)

theorem memUpdate_absent_record (items : List (String × JsonValue)) (ns : String)
    (s : Option ClampSettings) :
    ∀ (m : MemState) (rec : JsRecord Bool) (k : String),
    k ∈ items.map Prod.fst →
    getEntry m (serializeInternalKey ⟨k, ns⟩) = none →
    getEntry (items.foldl (memUpdateStep ns s) (m, rec)).2 k = some false := by
  induction items with
  | nil => intro m rec k hk _; cases hk
  | cons it rest ih =>
      intro m rec k hk habs
      simp only [List.foldl_cons]
      have habs1 : getEntry (memUpdateStep ns s (m, rec) it).1
          (serializeInternalKey ⟨k, ns⟩) = none :=
        memUpdateStep_no_create ns s (m, rec) it ⟨k, ns⟩ habs
      by_cases hkr : k ∈ rest.map Prod.fst
      · rw [show (memUpdateStep ns s (m, rec) it)
          = ((memUpdateStep ns s (m, rec) it).1,
             (memUpdateStep ns s (m, rec) it).2) from rfl]
        exact ih _ _ k hkr habs1
      · have hkit : k = it.1 := by
          rcases List.mem_map.mp hk with ⟨p, hp, hpe⟩
          rcases List.mem_cons.mp hp with h | h
          · rw [← hpe, h]
          · exact absurd (List.mem_map.mpr ⟨p, h, hpe⟩) hkr
        subst hkit
        rw [memUpdate_record_frame rest ns s _ _ hkr, memUpdateStep_record,
          getEntry_setEntry, if_pos rfl]
        have hf : hasInternal m ⟨it.1, ns⟩ = false := by
          simp [hasInternal, habs]
        rw [hf]

/-! ## Lemmas about the SQLite backend's bulk statements -/

theorem lookupLast_map_const {α : Type} (keys : List String) (k : String) (c : α) :
    lookupLast (keys.map (fun k => (k, c))) k
      = if k ∈ keys then some c else none := by
  induction keys with
  | nil => simp [lookupLast]
  | cons k0 rest ih =>
      simp only [List.map_cons, lookupLast, ih]
      by_cases hm : k ∈ rest
      · simp [hm]
      · by_cases he : k0 = k
        · simp [hm, he]
        · simp [hm, he, Ne.symm he]

theorem lookupLast_append {α : Type} (a b : List (String × α)) (k : String) :
    lookupLast (a ++ b) k
      = match lookupLast b k with
        | some v => some v
        | none => lookupLast a k := by
  induction a with
  | nil =>
      cases h : lookupLast b k <;> simp [lookupLast, h]
  | cons p rest ih =>
      obtain ⟨pk, pv⟩ := p
      show (match lookupLast (rest ++ b) k with
            | some v' => some v'
            | none => if pk = k then some pv else none) = _
      rw [ih]
      cases h : lookupLast b k <;> cases h2 : lookupLast rest k <;>
        simp [lookupLast, h, h2]

theorem sqliteInsert_fold_shape (items : List (String × JsonValue)) (ns : String)
    (s : Option ClampSettings) :
    ∀ (tbl : SqlTable) (ret : List String),
    ∃ extra : SqlTable,
      (items.foldl (sqliteInsertRow ns s) (tbl, ret)).1 = tbl ++ extra ∧
      ∀ r ∈ extra, r.ns = ns := by
  induction items with
  | nil => intro tbl ret; exact ⟨[], by simp, by simp⟩
  | cons it rest ih =>
      intro tbl ret
      simp only [List.foldl_cons, sqliteInsertRow]
      split
      · exact ih tbl ret
      · obtain ⟨extra, he, hns⟩ :=
          ih (tbl ++ [⟨ns, it.1, sqlClampJsonValue it.2 s⟩]) (ret ++ [it.1])
        refine ⟨⟨ns, it.1, sqlClampJsonValue it.2 s⟩ :: extra, ?_, ?_⟩
        · rw [he, List.append_assoc]
          rfl
        · intro r hr
          rcases List.mem_cons.mp hr with h | h
          · rw [h]
          · exact hns r h

theorem sqliteInsert_any_monotone (items : List (String × JsonValue))
    (ns : String) (s : Option ClampSettings) (tbl : SqlTable)
    (ret : List String) (p : SqlRow → Bool) (h : tbl.any p = true) :
    ((items.foldl (sqliteInsertRow ns s) (tbl, ret)).1).any p = true := by
  obtain ⟨extra, he, _⟩ := sqliteInsert_fold_shape items ns s tbl ret
  rw [he]
  simp [h]

theorem sqliteInsert_member_present (items : List (String × JsonValue))
    (ns : String) (s : Option ClampSettings) :
    ∀ (tbl : SqlTable) (ret : List String) (k : String) (v : JsonValue),
    (k, v) ∈ items →
    ((items.foldl (sqliteInsertRow ns s) (tbl, ret)).1).any (rowMatches ns k)
      = true := by
  induction items with
  | nil => intro tbl ret k v h; cases h
  | cons it rest ih =>
      intro tbl ret k v h
      simp only [List.foldl_cons]
      rcases List.mem_cons.mp h with h | h
      · subst h
        simp only [sqliteInsertRow]
        split
        · rename_i hcond
          exact sqliteInsert_any_monotone rest ns s _ _ _ hcond
        · apply sqliteInsert_any_monotone
          simp [rowMatches]
      · exact ih _ _ _ _ h

theorem sqliteInsert_allPresent (items : List (String × JsonValue)) (ns : String)
    (s : Option ClampSettings) :
    ∀ (tbl : SqlTable) (ret : List String),
    (∀ p ∈ items, tbl.any (rowMatches ns p.1) = true) →
    items.foldl (sqliteInsertRow ns s) (tbl, ret) = (tbl, ret) := by
  induction items with
  | nil => intro tbl ret _; rfl
  | cons it rest ih =>
      intro tbl ret hall
      have hhead : tbl.any (rowMatches ns it.1) = true := hall it (by simp)
      simp only [List.foldl_cons, sqliteInsertRow, hhead, if_pos]
      exact ih tbl ret (fun p hp => hall p (by simp [hp]))

theorem sqliteInsertRow_state_frame (ns : String) (s : Option ClampSettings)
    (acc : SqlTable × List String) (item : String × JsonValue)
    (ns' k : String) (h : item.1 ≠ k) :
    List.find? (rowMatches ns' k) (sqliteInsertRow ns s acc item).1
      = List.find? (rowMatches ns' k) acc.1 := by
  simp only [sqliteInsertRow]
  split
  · rfl
  · simp [List.find?_append, rowMatches, h]

theorem sqliteInsertRow_any_frame (ns : String) (s : Option ClampSettings)
    (acc : SqlTable × List String) (item : String × JsonValue)
    (ns' k : String) (h : item.1 ≠ k) :
    ((sqliteInsertRow ns s acc item).1).any (rowMatches ns' k)
      = acc.1.any (rowMatches ns' k) := by
  simp only [sqliteInsertRow]
  split
  · rfl
  · simp [List.any_append, rowMatches, h]

theorem sqliteInsertRow_ret_frame (ns : String) (s : Option ClampSettings)
    (acc : SqlTable × List String) (item : String × JsonValue)
    (k : String) (h : item.1 ≠ k) :
    (k ∈ (sqliteInsertRow ns s acc item).2) ↔ k ∈ acc.2 := by
  simp only [sqliteInsertRow]
  split
  · exact Iff.rfl
  · simp [Ne.symm h]

theorem sqliteInsert_state_frame2 (items : List (String × JsonValue))
    (ns : String) (s : Option ClampSettings) :
    ∀ (acc : SqlTable × List String) (ns' k : String),
    k ∉ items.map Prod.fst →
    List.find? (rowMatches ns' k) ((items.foldl (sqliteInsertRow ns s) acc).1)
      = List.find? (rowMatches ns' k) acc.1 := by
  induction items with
  | nil => intro acc ns' k _; rfl
  | cons it rest ih =>
      intro acc ns' k h
      have hk : it.1 ≠ k := fun he => h (by simp [he])
      have hrest : k ∉ rest.map Prod.fst := fun hm => h (by simp [hm])
      simp only [List.foldl_cons]
      rw [ih _ _ _ hrest, sqliteInsertRow_state_frame _ _ _ _ _ _ hk]

theorem sqliteInsert_ret_frame (items : List (String × JsonValue))
    (ns : String) (s : Option ClampSettings) :
    ∀ (acc : SqlTable × List String) (k : String),
    k ∉ items.map Prod.fst →
    ((k ∈ (items.foldl (sqliteInsertRow ns s) acc).2) ↔ k ∈ acc.2) := by
  induction items with
  | nil => intro acc k _; exact Iff.rfl
  | cons it rest ih =>
      intro acc k h
      have hk : it.1 ≠ k := fun he => h (by simp [he])
      have hrest : k ∉ rest.map Prod.fst := fun hm => h (by simp [hm])
      simp only [List.foldl_cons]
      rw [ih _ _ hrest, sqliteInsertRow_ret_frame _ _ _ _ _ hk]

theorem sqliteInsert_facts (items : List (String × JsonValue)) (ns : String)
    (s : Option ClampSettings) :
    ∀ (tbl : SqlTable) (ret : List String),
    (items.map Prod.fst).Nodup →
    ∀ k v, (k, v) ∈ items →
    ((k ∈ (items.foldl (sqliteInsertRow ns s) (tbl, ret)).2) ↔
      (k ∈ ret ∨ tbl.any (rowMatches ns k) = false)) ∧
    List.find? (rowMatches ns k) ((items.foldl (sqliteInsertRow ns s) (tbl, ret)).1)
      = (if tbl.any (rowMatches ns k)
         then List.find? (rowMatches ns k) tbl
         else some ⟨ns, k, sqlClampJsonValue v s⟩) := by
  induction items with
  | nil => intro tbl ret _ k v h; cases h
  | cons it rest ih =>
      intro tbl ret hnd k v h
      have hnd2 : (it.1 :: rest.map Prod.fst).Nodup := by simpa using hnd
      obtain ⟨hit, hndrest⟩ := List.nodup_cons.mp hnd2
      simp only [List.foldl_cons]
      rcases List.mem_cons.mp h with h | h
      · subst h
        simp only [sqliteInsertRow]
        split
        · rename_i hcond
          constructor
          · rw [sqliteInsert_ret_frame rest ns s _ _ hit]
            simp [hcond]
          · rw [sqliteInsert_state_frame2 rest ns s _ _ _ hit]
        · rename_i hcond
          rw [Bool.not_eq_true] at hcond
          constructor
          · rw [sqliteInsert_ret_frame rest ns s _ _ hit]
            simp [hcond]
          · rw [sqliteInsert_state_frame2 rest ns s _ _ _ hit]
            have htbl : List.find? (rowMatches ns k) tbl = none := by
              rw [List.find?_eq_none]
              intro x hx hpx
              exact absurd (List.any_eq_true.mpr ⟨x, hx, hpx⟩) (by simp [hcond])
            simp [List.find?_append, htbl, rowMatches]
      · have hkit : it.1 ≠ k := by
          intro he
          exact hit (he ▸ List.mem_map.mpr ⟨(k, v), h, rfl⟩)
        have hany := sqliteInsertRow_any_frame ns s (tbl, ret) it ns k hkit
        have hfind := sqliteInsertRow_state_frame ns s (tbl, ret) it ns k hkit
        have hret := sqliteInsertRow_ret_frame ns s (tbl, ret) it k hkit
        obtain ⟨h1, h2⟩ := ih (sqliteInsertRow ns s (tbl, ret) it).1
          (sqliteInsertRow ns s (tbl, ret) it).2 hndrest k v h
        refine ⟨?_, ?_⟩
        · rw [← hany]
          exact h1.trans (by rw [hret])
        · rw [h2, hany, hfind]

/-- `any` over a namespace/key predicate is the `isSome` of the lookup. -/
theorem sqlAny_eq_lookup_isSome (tbl : SqlTable) (ns k : String) :
    tbl.any (rowMatches ns k) = (sqlLookup tbl ns k).isSome := by
  induction tbl with
  | nil => simp [sqlLookup, List.find?]
  | cons r rest ih =>
      by_cases h : rowMatches ns k r = true
      · simp [sqlLookup, List.find?, h]
      · rw [Bool.not_eq_true] at h
        simp only [List.any_cons, h, Bool.false_or, sqlLookup, List.find?]
        simpa [sqlLookup] using ih

/-- C9: calling `insertIfNotExistsMany` twice with the identical input leaves
the store exactly as after one call, and the second call's record maps every
key of the batch to `false` — for the memory backend and the SQLite/Postgres
bulk `INSERT ... ON CONFLICT DO NOTHING` alike. -/
theorem c9_insertIfNotExistsMany_idempotent (ns : String)
    (items : List (String × JsonValue)) (settings : Option ClampSettings)
    (m : MemState) (tbl : SqlTable) :
    ((memInsertIfNotExistsMany
        (memInsertIfNotExistsMany m ns items settings).1 ns items settings).1
      = (memInsertIfNotExistsMany m ns items settings).1 ∧
     ∀ k ∈ items.map Prod.fst,
       getEntry (memInsertIfNotExistsMany
         (memInsertIfNotExistsMany m ns items settings).1 ns items settings).2 k
         = some false) ∧
    ((sqliteInsertIfNotExistsMany
        (sqliteInsertIfNotExistsMany tbl ns items settings).1 ns items settings).1
      = (sqliteInsertIfNotExistsMany tbl ns items settings).1 ∧
     ∀ k ∈ items.map Prod.fst,
       getEntry (sqliteInsertIfNotExistsMany
         (sqliteInsertIfNotExistsMany tbl ns items settings).1 ns items settings).2 k
         = some false) := by
  constructor
  · -- memory backend
    have hall : ∀ p ∈ items,
        hasInternal (memInsertIfNotExistsMany m ns items settings).1 ⟨p.1, ns⟩
          = true := by
      intro p hp
      exact memInsert_member_present items ns settings (m, []) p.1 p.2 hp
    exact ⟨memInsert_allPresent_state items ns settings _ [] hall,
      fun k hk => memInsert_allPresent_record items ns settings _ [] hall k hk⟩
  · -- SQLite backend
    by_cases hempty : items.isEmpty
    · have : items = [] := List.isEmpty_iff.mp hempty
      subst this
      exact ⟨rfl, by intro k hk; cases hk⟩
    · have hall : ∀ p ∈ items,
          ((sqliteInsertIfNotExistsMany tbl ns items settings).1).any
            (rowMatches ns p.1) = true := by
        intro p hp
        simp only [sqliteInsertIfNotExistsMany, hempty, Bool.false_eq_true,
          if_false]
        exact sqliteInsert_member_present items ns settings tbl [] p.1 p.2 hp
      have hfold := sqliteInsert_allPresent items ns settings
        (sqliteInsertIfNotExistsMany tbl ns items settings).1 [] hall
      constructor
      · simp only [sqliteInsertIfNotExistsMany, hempty, Bool.false_eq_true,
          if_false] at hfold ⊢
        rw [hfold]
      · intro k hk
        simp only [sqliteInsertIfNotExistsMany, hempty, Bool.false_eq_true,
          if_false] at hfold ⊢
        rw [hfold]
        rw [getEntry_fromEntries]
        rw [show (items.map (fun p => (p.1, false))
            = (items.map Prod.fst).map (fun k => (k, false))) by
          rw [List.map_map]; rfl]
        simp only [List.map_nil, List.append_nil]
        rw [lookupLast_map_const, if_pos hk]

theorem c9_insertIfNotExistsMany_idempotent_witness :
    ((memInsertIfNotExistsMany
        (memInsertIfNotExistsMany [] "g" [("a", JsonValue.num 1)] none).1 "g"
        [("a", JsonValue.num 1)] none).1
      = (memInsertIfNotExistsMany [] "g" [("a", JsonValue.num 1)] none).1) ∧
    getEntry (memInsertIfNotExistsMany
        (memInsertIfNotExistsMany [] "g" [("a", JsonValue.num 1)] none).1 "g"
        [("a", JsonValue.num 1)] none).2 "a" = some false ∧
    ((sqliteInsertIfNotExistsMany
        (sqliteInsertIfNotExistsMany [] "g" [("a", JsonValue.num 1)] none).1 "g"
        [("a", JsonValue.num 1)] none).1
      = (sqliteInsertIfNotExistsMany [] "g" [("a", JsonValue.num 1)] none).1) ∧
    getEntry (sqliteInsertIfNotExistsMany
        (sqliteInsertIfNotExistsMany [] "g" [("a", JsonValue.num 1)] none).1 "g"
        [("a", JsonValue.num 1)] none).2 "a" = some false :=
  ⟨(c9_insertIfNotExistsMany_idempotent "g" [("a", JsonValue.num 1)] none [] []).1.1,
   (c9_insertIfNotExistsMany_idempotent "g" [("a", JsonValue.num 1)] none [] []).1.2
     "a" (by simp),
   (c9_insertIfNotExistsMany_idempotent "g" [("a", JsonValue.num 1)] none [] []).2.1,
   (c9_insertIfNotExistsMany_idempotent "g" [("a", JsonValue.num 1)] none [] []).2.2
     "a" (by simp)⟩

/-- C5 counterexample: for the memory backend and a batch that repeats the
key `k` (absent beforehand), the first occurrence inserts `1`, the second
occurrence finds the key present and overwrites the record entry, so the
call reports `false` for `k` even though `k` was inserted by this very
call — the claim requires `true` for a key that was inserted. -/
theorem c5_counterexample :
    (memInsertIfNotExistsMany [] "g"
        [("k", JsonValue.num 1), ("k", JsonValue.num 2)] none).1
      = [(serializeInternalKey ⟨"k", "g"⟩, JsonValue.num 1)] ∧
    getEntry (memInsertIfNotExistsMany [] "g"
        [("k", JsonValue.num 1), ("k", JsonValue.num 2)] none).2 "k"
      = some false ∧
    memLookup [] "g" "k" = none :=
  ⟨rfl, rfl, rfl⟩

theorem sqliteInsert_other_ns_frame (items : List (String × JsonValue))
    (ns : String) (s : Option ClampSettings) (tbl : SqlTable) (ret : List String)
    (ns' k : String) (h : ns' ≠ ns) :
    List.find? (rowMatches ns' k) ((items.foldl (sqliteInsertRow ns s) (tbl, ret)).1)
      = List.find? (rowMatches ns' k) tbl := by
  obtain ⟨extra, he, hns⟩ := sqliteInsert_fold_shape items ns s tbl ret
  rw [he, List.find?_append]
  have hnone : List.find? (rowMatches ns' k) extra = none := by
    rw [List.find?_eq_none]
    intro r hr hp
    simp only [rowMatches, Bool.and_eq_true, decide_eq_true_eq] at hp
    exact h (hp.1 ▸ hns r hr)
  simp [hnone]

/-- C5 amended: for every backend and every batch whose keys are pairwise
distinct, `insertIfNotExistsMany` inserts an item exactly when its key is
absent in the bound namespace, returns `true` for inserted keys and `false`
for pre-existing ones (whose stored value is left untouched), and touches no
other slot of the store.  (When the batch repeats a key, the memory backend
reports the last occurrence's outcome, so a key inserted by an earlier
occurrence of itself reports `false` — see the counterexample.) -/
theorem c5_amended (ns : String) (items : List (String × JsonValue))
    (settings : Option ClampSettings) (m : MemState) (tbl : SqlTable)
    (hnd : (items.map Prod.fst).Nodup) (k : String) (v : JsonValue)
    (hmem : (k, v) ∈ items) :
    (getEntry (memInsertIfNotExistsMany m ns items settings).2 k
        = some (! (memLookup m ns k).isSome) ∧
     memLookup (memInsertIfNotExistsMany m ns items settings).1 ns k
        = (if (memLookup m ns k).isSome then memLookup m ns k
           else some (memClampValue settings v)) ∧
     (∀ ns' k', (ns' ≠ ns ∨ k' ∉ items.map Prod.fst) →
        memLookup (memInsertIfNotExistsMany m ns items settings).1 ns' k'
          = memLookup m ns' k')) ∧
    (getEntry (sqliteInsertIfNotExistsMany tbl ns items settings).2 k
        = some (! (sqlLookup tbl ns k).isSome) ∧
     sqlLookup (sqliteInsertIfNotExistsMany tbl ns items settings).1 ns k
        = (if (sqlLookup tbl ns k).isSome then sqlLookup tbl ns k
           else some (sqlClampJsonValue v settings)) ∧
     (∀ ns' k', (ns' ≠ ns ∨ k' ∉ items.map Prod.fst) →
        sqlLookup (sqliteInsertIfNotExistsMany tbl ns items settings).1 ns' k'
          = sqlLookup tbl ns' k')) := by
  have hempty : items.isEmpty = false := by
    cases items with
    | nil => cases hmem
    | cons a l => rfl
  constructor
  · -- memory backend
    obtain ⟨h1, h2⟩ := memInsert_facts items ns settings m [] hnd k v hmem
    refine ⟨h1, ?_, ?_⟩
    · exact h2
    · intro ns' k' hcond
      exact memInsert_state_frame items ns settings (m, []) ⟨k', ns'⟩ hcond
  · -- SQLite backend
    obtain ⟨h1, h2⟩ := sqliteInsert_facts items ns settings tbl [] hnd k v hmem
    simp only [sqliteInsertIfNotExistsMany, hempty, Bool.false_eq_true, if_false]
    refine ⟨?_, ?_, ?_⟩
    · rw [getEntry_fromEntries, lookupLast_append]
      rw [lookupLast_map_const]
      rw [show (items.map (fun p => (p.1, false))
          = (items.map Prod.fst).map (fun kk => (kk, false))) by
        rw [List.map_map]; rfl]
      rw [lookupLast_map_const]
      by_cases hany : tbl.any (rowMatches ns k) = true
      · have hnotin : k ∉ (items.foldl (sqliteInsertRow ns settings) (tbl, [])).2 := by
          intro hin
          rcases h1.mp hin with h | h
          · cases h
          · rw [hany] at h
            cases h
        rw [if_neg hnotin, if_pos (List.mem_map.mpr ⟨(k, v), hmem, rfl⟩)]
        rw [← sqlAny_eq_lookup_isSome, hany]
        rfl
      · rw [Bool.not_eq_true] at hany
        have hin : k ∈ (items.foldl (sqliteInsertRow ns settings) (tbl, [])).2 :=
          h1.mpr (Or.inr hany)
        rw [if_pos hin, ← sqlAny_eq_lookup_isSome, hany]
        rfl
    · rw [← sqlAny_eq_lookup_isSome]
      simp only [sqlLookup, h2]
      by_cases hany : tbl.any (rowMatches ns k) = true
      · rw [if_pos hany, if_pos hany]
      · rw [Bool.not_eq_true] at hany
        rw [if_neg (by simp [hany]), if_neg (by simp [hany])]
        rfl
    · intro ns' k' hcond
      rcases hcond with h | h
      · simp only [sqlLookup]
        rw [sqliteInsert_other_ns_frame items ns settings tbl [] ns' k' h]
      · simp only [sqlLookup]
        rw [sqliteInsert_state_frame2 items ns settings (tbl, []) ns' k' h]

theorem c5_amended_witness :
    (("a" :: List.map Prod.fst ([] : List (String × JsonValue))).Nodup ∧
     ("a", JsonValue.num 7) ∈ [("a", JsonValue.num 7)]) ∧
    (getEntry (memInsertIfNotExistsMany [] "g" [("a", JsonValue.num 7)] none).2 "a"
        = some (! (memLookup [] "g" "a").isSome) ∧
     memLookup (memInsertIfNotExistsMany [] "g" [("a", JsonValue.num 7)] none).1 "g" "a"
        = (if (memLookup [] "g" "a").isSome then memLookup [] "g" "a"
           else some (memClampValue none (JsonValue.num 7))) ∧
     (∀ ns' k', (ns' ≠ "g" ∨ k' ∉ ([("a", JsonValue.num 7)].map Prod.fst)) →
        memLookup (memInsertIfNotExistsMany [] "g" [("a", JsonValue.num 7)] none).1 ns' k'
          = memLookup [] ns' k')) ∧
    (getEntry (sqliteInsertIfNotExistsMany [] "g" [("a", JsonValue.num 7)] none).2 "a"
        = some (! (sqlLookup [] "g" "a").isSome) ∧
     sqlLookup (sqliteInsertIfNotExistsMany [] "g" [("a", JsonValue.num 7)] none).1 "g" "a"
        = (if (sqlLookup [] "g" "a").isSome then sqlLookup [] "g" "a"
           else some (sqlClampJsonValue (JsonValue.num 7) none)) ∧
     (∀ ns' k', (ns' ≠ "g" ∨ k' ∉ ([("a", JsonValue.num 7)].map Prod.fst)) →
        sqlLookup (sqliteInsertIfNotExistsMany [] "g" [("a", JsonValue.num 7)] none).1 ns' k'
          = sqlLookup [] ns' k')) :=
  ⟨⟨by simp, by simp⟩,
   c5_amended "g" [("a", JsonValue.num 7)] none [] [] (by simp) "a"
     (JsonValue.num 7) (by simp)⟩

theorem find?_map_pres {α : Type} (f : α → α) (p : α → Bool) (l : List α)
    (hf : ∀ r, p (f r) = p r) :
    List.find? p (l.map f) = (List.find? p l).map f := by
  induction l with
  | nil => rfl
  | cons x rest ih =>
      by_cases h : p x = true
      · simp [List.find?, hf, h]
      · rw [Bool.not_eq_true] at h
        simp only [List.map_cons, List.find?, hf, h]
        exact ih

/-- C6: `updateIfExistsMany` on a key absent in the bound namespace reports
`false` for it, never creates it, and leaves every slot addressed by that
key — in any namespace — unchanged; for the memory backend (per-key
`hasInternal` guard) and for the SQLite/Postgres bulk
`UPDATE ... WHERE namespace = ? AND key IN (...)` alike. -/
theorem c6_updateIfExistsMany_absent (ns : String)
    (items : List (String × JsonValue)) (settings : Option ClampSettings)
    (m : MemState) (tbl : SqlTable) (k : String)
    (hk : k ∈ items.map Prod.fst) :
    (memLookup m ns k = none →
      getEntry (memUpdateIfExistsMany m ns items settings).2 k = some false ∧
      ∀ ns', memLookup (memUpdateIfExistsMany m ns items settings).1 ns' k
        = memLookup m ns' k) ∧
    (sqlLookup tbl ns k = none →
      getEntry (sqliteUpdateIfExistsMany tbl ns items settings).2 k = some false ∧
      ∀ ns', sqlLookup (sqliteUpdateIfExistsMany tbl ns items settings).1 ns' k
        = sqlLookup tbl ns' k) := by
  have hempty : items.isEmpty = false := by
    cases items with
    | nil => cases hk
    | cons a l => rfl
  constructor
  · -- memory backend
    intro habs
    refine ⟨memUpdate_absent_record items ns settings m [] k hk habs, ?_⟩
    intro ns'
    by_cases hns : ns' = ns
    · subst hns
      rw [habs]
      exact memUpdate_no_create items ns' settings (m, []) ⟨k, ns'⟩ habs
    · exact memUpdate_state_frame items ns settings (m, []) ⟨k, ns'⟩ (Or.inl hns)
  · -- SQLite backend
    intro habs
    have hfind : List.find? (rowMatches ns k) tbl = none := by
      simp only [sqlLookup] at habs
      exact Option.map_eq_none'.mp habs
    have hpres : ∀ ns' k' (r : SqlRow),
        rowMatches ns' k'
          (if r.ns = ns && (items.map (fun p => p.1)).contains r.key
           then (⟨r.ns, r.key, caseValueFor items settings r.key⟩ : SqlRow)
           else r)
          = rowMatches ns' k' r := by
      intro ns' k' r
      split <;> simp [rowMatches]
    constructor
    · -- record
      simp only [sqliteUpdateIfExistsMany, hempty, Bool.false_eq_true, if_false]
      rw [getEntry_fromEntries, lookupLast_append]
      have hnotin : k ∉ ((tbl.filter
          (fun r => r.ns = ns && (items.map (fun p => p.1)).contains r.key)).map
            (fun r => r.key)) := by
        intro hin
        rcases List.mem_map.mp hin with ⟨r, hr, hre⟩
        rcases List.mem_filter.mp hr with ⟨hrt, hrp⟩
        simp only [Bool.and_eq_true, decide_eq_true_eq] at hrp
        have : rowMatches ns k r = true := by
          simp [rowMatches, hrp.1, hre]
        rw [List.find?_eq_none] at hfind
        exact hfind r hrt this
      rw [show (((tbl.filter (fun r => r.ns = ns
            && (items.map (fun p => p.1)).contains r.key)).map
              (fun r => r.key)).map (fun kk => (kk, true))
          = ((tbl.filter (fun r => r.ns = ns
            && (items.map (fun p => p.1)).contains r.key)).map
              (fun r => r.key)).map (fun kk => (kk, true))) from rfl]
      rw [lookupLast_map_const, if_neg hnotin]
      rw [show (items.map (fun p => (p.1, false))
          = (items.map Prod.fst).map (fun kk => (kk, false))) by
        rw [List.map_map]; rfl]
      rw [lookupLast_map_const, if_pos hk]
    · -- state, for every namespace
      intro ns'
      simp only [sqliteUpdateIfExistsMany, hempty, Bool.false_eq_true, if_false]
      simp only [sqlLookup]
      rw [find?_map_pres _ _ _ (hpres ns' k)]
      by_cases hns : ns' = ns
      · subst hns
        rw [hfind]
        rfl
      · cases hres : List.find? (rowMatches ns' k) tbl with
        | none => rfl
        | some r =>
            have hp := List.find?_some hres
            simp only [rowMatches, Bool.and_eq_true, decide_eq_true_eq] at hp
            have : (if r.ns = ns && (items.map (fun p => p.1)).contains r.key
                then (⟨r.ns, r.key, caseValueFor items settings r.key⟩ : SqlRow)
                else r) = r := by
              rw [if_neg]
              simp only [Bool.and_eq_true, decide_eq_true_eq, not_and]
              intro hrns
              exact absurd (hp.1.symm.trans hrns) hns
            simp [this]

theorem c6_updateIfExistsMany_absent_witness :
    ("k" ∈ ([("k", JsonValue.num 5)].map Prod.fst)) ∧
    memLookup [] "g" "k" = none ∧
    getEntry (memUpdateIfExistsMany [] "g" [("k", JsonValue.num 5)] none).2 "k"
      = some false ∧
    memLookup (memUpdateIfExistsMany [] "g" [("k", JsonValue.num 5)] none).1 "h" "k"
      = memLookup [] "h" "k" ∧
    getEntry (sqliteUpdateIfExistsMany [] "g" [("k", JsonValue.num 5)] none).2 "k"
      = some false ∧
    sqlLookup (sqliteUpdateIfExistsMany [] "g" [("k", JsonValue.num 5)] none).1 "g" "k"
      = sqlLookup [] "g" "k" :=
  ⟨by simp, rfl,
   ((c6_updateIfExistsMany_absent "g" [("k", JsonValue.num 5)] none [] [] "k"
       (by simp)).1 rfl).1,
   ((c6_updateIfExistsMany_absent "g" [("k", JsonValue.num 5)] none [] [] "k"
       (by simp)).1 rfl).2 "h",
   ((c6_updateIfExistsMany_absent "g" [("k", JsonValue.num 5)] none [] [] "k"
       (by simp)).2 rfl).1,
   ((c6_updateIfExistsMany_absent "g" [("k", JsonValue.num 5)] none [] [] "k"
       (by simp)).2 rfl).2 "g"⟩

theorem clearLoop_error_runtime (ns : String) :
    ∀ (entries : List (String × JsonValue)) (m : MemState) (e : JsError),
    clearLoop ns entries m = .error e → e.isKeyValueStorageError = false := by
  intro entries
  induction entries with
  | nil => intro m e h; cases h
  | cons p rest ih =>
      intro m e h
      obtain ⟨pk, pv⟩ := p
      simp only [clearLoop] at h
      cases hd : deserializeInternalKey pk with
      | none =>
          rw [hd] at h
          cases h
          rfl
      | some ik =>
          rw [hd] at h
          exact ih _ _ h

/-- C8 counterexample: the memory backend's operations have no try/catch at
all. With a physical map holding a key outside the serializer's image,
`clear()` propagates `JSON.parse`'s raw `SyntaxError` — the caller receives
an error that is *not* an instance of the storage error base class. -/
theorem c8_counterexample :
    memClear [("not-json", JsonValue.null)] "g"
      = .error (.runtime "SyntaxError: JSON.parse") ∧
    JsError.isKeyValueStorageError (.runtime "SyntaxError: JSON.parse") = false := by
  constructor
  · rfl
  · rfl

/-- C8 amended: the SQL backends' operations other than `transaction` wrap
their bodies in the catch block `wrapStorageErrors`, which passes a
recognized `KeyValueStorageError` through unchanged, wraps any other thrown
value as an `UnexpectedKeyValueStorageError` carrying it as the cause, and
therefore only ever lets storage errors escape.  The memory backend's
operations (and both SQL `transaction` methods) have no such catch: an
underlying runtime error — such as `JSON.parse` failing on a foreign
physical key during `clear()` — reaches the caller unwrapped, and is never a
storage error. -/
theorem c8_error_wrapping (α : Type) :
    (∀ a : α, wrapStorageErrors (Except.ok a) = .ok a) ∧
    (∀ e : JsError, e.isKeyValueStorageError = true →
       wrapStorageErrors (Except.error (α := α) e) = .error e) ∧
    (∀ e : JsError, e.isKeyValueStorageError = false →
       wrapStorageErrors (Except.error (α := α) e)
         = .error (.storage "UnexpectedKeyValueStorageError"
             "Unexpected error occured" (some e))) ∧
    (∀ (r : Except JsError α) (e : JsError),
       wrapStorageErrors r = .error e → e.isKeyValueStorageError = true) ∧
    (∀ (m : MemState) (ns : String) (e : JsError),
       memClear m ns = .error e → e.isKeyValueStorageError = false) := by
  refine ⟨fun a => rfl, ?_, ?_, ?_, ?_⟩
  · intro e he
    simp [wrapStorageErrors, he]
  · intro e he
    simp [wrapStorageErrors, he]
  · intro r e h
    cases r with
    | ok a => cases h
    | error e0 =>
        simp only [wrapStorageErrors] at h
        by_cases he0 : e0.isKeyValueStorageError = true
        · rw [if_pos he0] at h
          cases h
          exact he0
        · rw [Bool.not_eq_true] at he0
          rw [if_neg (by simp [he0])] at h
          cases h
          rfl
  · intro m ns e h
    exact clearLoop_error_runtime ns m m e h

theorem c8_error_wrapping_witness :
    wrapStorageErrors (Except.ok (42 : Nat)) = .ok 42 ∧
    (JsError.isKeyValueStorageError
        (.storage "KeyValueStorageError" "boom" none) = true ∧
     wrapStorageErrors (Except.error (α := Nat)
        (.storage "KeyValueStorageError" "boom" none))
       = .error (.storage "KeyValueStorageError" "boom" none)) ∧
    (JsError.isKeyValueStorageError (.runtime "boom") = false ∧
     wrapStorageErrors (Except.error (α := Nat) (.runtime "boom"))
       = .error (.storage "UnexpectedKeyValueStorageError"
           "Unexpected error occured" (some (.runtime "boom")))) ∧
    (wrapStorageErrors (Except.error (α := Nat) (.runtime "boom"))
       = .error (.storage "UnexpectedKeyValueStorageError"
           "Unexpected error occured" (some (.runtime "boom"))) →
     JsError.isKeyValueStorageError
       (.storage "UnexpectedKeyValueStorageError"
         "Unexpected error occured" (some (.runtime "boom"))) = true) ∧
    (memClear [("not-json", JsonValue.null)] "g"
        = .error (.runtime "SyntaxError: JSON.parse") →
     JsError.isKeyValueStorageError (.runtime "SyntaxError: JSON.parse") = false) :=
  ⟨(c8_error_wrapping Nat).1 42,
   ⟨rfl, (c8_error_wrapping Nat).2.1 _ rfl⟩,
   ⟨rfl, (c8_error_wrapping Nat).2.2.1 _ rfl⟩,
   (c8_error_wrapping Nat).2.2.2.1 _ _,
   (c8_error_wrapping Nat).2.2.2.2 _ "g" _⟩

/-! ## Namespace isolation infrastructure -/

theorem getEntry_eq_some_of_mem {m : MemState} {q : String} {v : JsonValue}
    (hnd : (m.map Prod.fst).Nodup) (hmem : (q, v) ∈ m) :
    getEntry m q = some v := by
  induction m with
  | nil => cases hmem
  | cons p rest ih =>
      obtain ⟨pk, pv⟩ := p
      have hnd2 : (pk :: rest.map Prod.fst).Nodup := by simpa using hnd
      obtain ⟨hpk, hndrest⟩ := List.nodup_cons.mp hnd2
      rcases List.mem_cons.mp hmem with h | h
      · cases h
        simp [getEntry, List.find?]
      · have hq : pk ≠ q := by
          intro he
          exact hpk (he ▸ List.mem_map.mpr ⟨(q, v), h, rfl⟩)
        simp only [getEntry, List.find?]
        rw [show (decide (pk = q)) = false by simp [hq]]
        exact ih hndrest h

theorem mem_of_getEntry_eq_some {m : MemState} {q : String} {v : JsonValue}
    (h : getEntry m q = some v) : (q, v) ∈ m := by
  induction m with
  | nil => cases h
  | cons p rest ih =>
      obtain ⟨pk, pv⟩ := p
      by_cases hq : pk = q
      · subst hq
        have h2 : pv = v := by
          simpa [getEntry, List.find?] using h
        exact List.mem_cons.mpr (Or.inl (by rw [h2]))
      · simp only [getEntry, List.find?] at h
        rw [show (decide (pk = q)) = false by simp [hq]] at h
        exact List.mem_cons.mpr (Or.inr (ih h))

/-- The decoded namespace of a physical map key. -/
def decodeNs (q : String) : Option String :=
  (deserializeInternalKey q).map (fun ik => ik.ns)

theorem sizeLoop_ok (ns : String) :
    ∀ (entries : List (String × JsonValue)) (acc : Nat),
    (∀ p ∈ entries, (deserializeInternalKey p.1).isSome) →
    sizeLoop ns entries acc
      = .ok (acc + entries.countP (fun p => decide (decodeNs p.1 = some ns))) := by
  intro entries
  induction entries with
  | nil => intro acc _; simp [sizeLoop]
  | cons p rest ih =>
      intro acc hwf
      obtain ⟨pk, pv⟩ := p
      obtain ⟨ik, hik⟩ := Option.isSome_iff_exists.mp (hwf (pk, pv) (by simp))
      simp only [sizeLoop, hik]
      rw [ih _ (fun p hp => hwf p (by simp [hp]))]
      by_cases hns : ik.ns = ns
      · rw [if_pos hns]
        have hdec : decide (decodeNs pk = some ns) = true := by
          simp [decodeNs, hik, hns]
        rw [List.countP_cons, hdec]
        simp
        omega
      · rw [if_neg hns]
        have : decide (decodeNs pk = some ns) = false := by
          simp [decodeNs, hik, hns]
        rw [List.countP_cons, this]
        simp

theorem clearLoop_facts (ns : String) :
    ∀ (entries : List (String × JsonValue)) (m : MemState),
    (∀ p ∈ entries, (deserializeInternalKey p.1).isSome) →
    ∃ m', clearLoop ns entries m = .ok m' ∧
      (∀ q, getEntry m' q = getEntry m q ∨ getEntry m' q = none) ∧
      (∀ q ik, deserializeInternalKey q = some ik → ik.ns ≠ ns →
         getEntry m' q = getEntry m q) ∧
      (∀ q, q ∈ entries.map Prod.fst →
         (∃ ik, deserializeInternalKey q = some ik ∧ ik.ns = ns) →
         getEntry m' q = none) := by
  intro entries
  induction entries with
  | nil =>
      intro m _
      exact ⟨m, rfl, fun q => Or.inl rfl, fun _ _ _ _ => rfl,
        fun q hq _ => absurd hq (by simp)⟩
  | cons p rest ih =>
      intro m hwf
      obtain ⟨pk, pv⟩ := p
      obtain ⟨ik, hik⟩ := Option.isSome_iff_exists.mp (hwf (pk, pv) (by simp))
      obtain ⟨m', hok, hdel, hpres, hdelns⟩ :=
        ih (if ik.ns = ns then mapDelete m pk else m)
          (fun p hp => hwf p (by simp [hp]))
      refine ⟨m', ?_, ?_, ?_, ?_⟩
      · simp only [clearLoop, hik]
        exact hok
      · intro q
        rcases hdel q with h | h
        · rw [h]
          by_cases hns : ik.ns = ns
        
          · rw [if_pos hns, getEntry_mapDelete]
            by_cases hpq : pk = q
            · simp [hpq]
            · simp [hpq]
          · rw [if_neg hns]
            exact Or.inl rfl
        · exact Or.inr h
      · intro q ik' hq hns'
        rw [hpres q ik' hq hns']
        by_cases hns : ik.ns = ns
        · rw [if_pos hns, getEntry_mapDelete]
          have hpq : pk ≠ q := by
            intro he
            subst he
            rw [hik] at hq
            cases hq
            exact hns' hns
          rw [if_neg hpq]
        · rw [if_neg hns]
      · intro q hq hex
        rw [List.map_cons, List.mem_cons] at hq
        rcases hq with h | h
        · subst h
          obtain ⟨ik', hik', hns'⟩ := hex
          rw [hik] at hik'
          cases hik'
          have hm1 : getEntry (if ik.ns = ns then mapDelete m q else m) q
              = none := by
            rw [if_pos hns', getEntry_mapDelete, if_pos rfl]
          rcases hdel q with h2 | h2
          · rw [h2, hm1]
          · exact h2
        · exact hdelns q h hex

theorem memIterateLoop_facts (m : MemState) (ns : String)
    (hwf : ∀ p ∈ m, ∃ ik : InternalKey, p.1 = serializeInternalKey ik)
    (hnd : (m.map Prod.fst).Nodup) :
    ∀ entries : List (String × JsonValue), (∀ p ∈ entries, p ∈ m) →
    ∃ l, memIterateLoop m ns entries = .ok l ∧
      ∀ k v, ((k, v) ∈ l ↔ (serializeInternalKey ⟨k, ns⟩, v) ∈ entries) := by
  intro entries
  induction entries with
  | nil => exact fun _ => ⟨[], rfl, by simp⟩
  | cons p rest ih =>
      intro hsub
      obtain ⟨pk, pv⟩ := p
      obtain ⟨ik, hik⟩ := hwf (pk, pv) (hsub _ (by simp))
      simp only at hik
      subst hik
      obtain ⟨l, hok, hiff⟩ := ih (fun p hp => hsub p (by simp [hp]))
      simp only [memIterateLoop, deserialize_serialize, hok]
      by_cases hns : ik.ns = ns
      · have hhas : hasInternal m ik = true := by
          have hmem : (serializeInternalKey ik, pv) ∈ m := hsub _ (by simp)
          have := getEntry_eq_some_of_mem hnd hmem
          simp [hasInternal, this]
        rw [if_pos ⟨hns, hhas⟩]
        refine ⟨(ik.key, pv) :: l, rfl, ?_⟩
        intro k v
        constructor
        · intro hin
          rcases List.mem_cons.mp hin with h | h
          · injection h with hk hv
            subst hk hv
            rw [show (⟨ik.key, ns⟩ : InternalKey) = ik from by rw [← hns]]
            exact List.mem_cons.mpr (Or.inl rfl)
          · exact List.mem_cons.mpr (Or.inr ((hiff k v).mp h))
        · intro hin
          rcases List.mem_cons.mp hin with h | h
          · injection h with h1 h2
            have h3 := serializeInternalKey_injective h1
            have hk : k = ik.key := congrArg InternalKey.key h3
            subst h2
            rw [hk]
            exact List.mem_cons.mpr (Or.inl rfl)
          · exact List.mem_cons.mpr (Or.inr ((hiff k v).mpr h))
      · rw [if_neg (fun hc => hns hc.1)]
        refine ⟨l, hok ▸ rfl, ?_⟩
        intro k v
        rw [hiff k v]
        constructor
        · intro h
          exact List.mem_cons.mpr (Or.inr h)
        · intro h
          rcases List.mem_cons.mp h with h | h
          · injection h with h1 h2
            have h3 := serializeInternalKey_injective h1
            have hns2 : ns = ik.ns := congrArg InternalKey.ns h3
            exact absurd hns2.symm hns
          · exact h

theorem memGetMany_congr (keys : List String) (ns : String) (m m' : MemState)
    (h : ∀ kk, memLookup m ns kk = memLookup m' ns kk) :
    memGetMany m ns keys = memGetMany m' ns keys := by
  have hgi : ∀ kk, getInternal m ⟨kk, ns⟩ = getInternal m' ⟨kk, ns⟩ := by
    intro kk
    simp only [getInternal]
    rw [show getEntry m (serializeInternalKey ⟨kk, ns⟩)
        = getEntry m' (serializeInternalKey ⟨kk, ns⟩) from h kk]
  simp only [memGetMany]
  suffices h2 : ∀ r : JsRecord JsonValue,
      keys.foldl (fun rec kk => setEntry rec kk (getInternal m ⟨kk, ns⟩)) r
        = keys.foldl (fun rec kk => setEntry rec kk (getInternal m' ⟨kk, ns⟩)) r from
    h2 []
  induction keys with
  | nil => intro r; rfl
  | cons k rest ih =>
      intro r
      rw [List.foldl_cons, List.foldl_cons, hgi k]
      exact ih _

theorem find?_filter_keep {α : Type} (p keep : α → Bool) (l : List α)
    (h : ∀ r, p r = true → keep r = true) :
    List.find? p (l.filter keep) = List.find? p l := by
  induction l with
  | nil => rfl
  | cons x rest ih =>
      by_cases hp : p x = true
      · rw [List.filter_cons, if_pos (h x hp)]
        simp [List.find?, hp, ih]
      · rw [Bool.not_eq_true] at hp
        rw [List.filter_cons]
        by_cases hk : keep x = true
        · rw [if_pos hk]
          simp only [List.find?, hp]
          exact ih
        · rw [Bool.not_eq_true] at hk
          rw [if_neg (by simp [hk])]
          rw [ih]
          conv_rhs => rw [List.find?]
          rw [hp]

theorem find?_filter_drop {α : Type} (p keep : α → Bool) (l : List α)
    (h : ∀ r, p r = true → keep r = false) :
    List.find? p (l.filter keep) = none := by
  induction l with
  | nil => rfl
  | cons x rest ih =>
      rw [List.filter_cons]
      by_cases hk : keep x = true
      · rw [if_pos hk]
        have hp : p x = false := by
          by_cases hp : p x = true
          · rw [h x hp] at hk
            cases hk
          · exact Bool.not_eq_true _ |>.mp hp
        simp only [List.find?, hp]
        exact ih
      · rw [Bool.not_eq_true] at hk
        rw [if_neg (by simp [hk])]
        exact ih

/-- Rows of other namespaces are untouched by `updateIfExistsMany`. -/
theorem sqliteUpdate_other_ns (tbl : SqlTable) (ns : String)
    (items : List (String × JsonValue)) (settings : Option ClampSettings)
    (ns' k : String) (h : ns' ≠ ns) :
    sqlLookup (sqliteUpdateIfExistsMany tbl ns items settings).1 ns' k
      = sqlLookup tbl ns' k := by
  by_cases hempty : items.isEmpty
  · simp only [sqliteUpdateIfExistsMany, hempty, if_true]
  · simp only [sqliteUpdateIfExistsMany, hempty, Bool.false_eq_true, if_false]
    simp only [sqlLookup]
    have hpres : ∀ r : SqlRow,
        rowMatches ns' k
          (if r.ns = ns && (items.map (fun p => p.1)).contains r.key
           then (⟨r.ns, r.key, caseValueFor items settings r.key⟩ : SqlRow)
           else r)
          = rowMatches ns' k r := by
      intro r
      split <;> simp [rowMatches]
    rw [find?_map_pres _ _ _ hpres]
    cases hres : List.find? (rowMatches ns' k) tbl with
    | none => rfl
    | some r =>
        have hp := List.find?_some hres
        simp only [rowMatches, Bool.and_eq_true, decide_eq_true_eq] at hp
        have heq : (if r.ns = ns && (items.map (fun p => p.1)).contains r.key
            then (⟨r.ns, r.key, caseValueFor items settings r.key⟩ : SqlRow)
            else r) = r := by
          rw [if_neg]
          simp only [Bool.and_eq_true, decide_eq_true_eq, not_and]
          intro hrns
          exact absurd (hp.1.symm.trans hrns) h
        simp [heq]

/-- Rows of other namespaces are untouched by `removeIfExistsMany`. -/
theorem sqliteRemove_other_ns (tbl : SqlTable) (ns : String)
    (keys : List String) (ns' k : String) (h : ns' ≠ ns) :
    sqlLookup (sqliteRemoveIfExistsMany tbl ns keys).1 ns' k
      = sqlLookup tbl ns' k := by
  by_cases hempty : keys = []
  · simp [sqliteRemoveIfExistsMany, hempty]
  · simp only [sqliteRemoveIfExistsMany, hempty, if_false]
    simp only [sqlLookup]
    rw [find?_filter_keep]
    intro r hp
    simp only [rowMatches, Bool.and_eq_true, decide_eq_true_eq] at hp
    simp [hp.1, h]

/-- Rows of other namespaces are untouched by `clear`. -/
theorem sqliteClear_other_ns (tbl : SqlTable) (ns : String)
    (ns' k : String) (h : ns' ≠ ns) :
    sqlLookup (sqliteClear tbl ns) ns' k = sqlLookup tbl ns' k := by
  simp only [sqliteClear, sqlLookup]
  rw [find?_filter_keep]
  intro r hp
  simp only [rowMatches, Bool.and_eq_true, decide_eq_true_eq] at hp
  simp [hp.1, h]

/-- `clear` removes every entry of the bound namespace. -/
theorem sqliteClear_own_ns (tbl : SqlTable) (ns k : String) :
    sqlLookup (sqliteClear tbl ns) ns k = none := by
  simp only [sqliteClear, sqlLookup]
  rw [find?_filter_drop]
  · rfl
  · intro r hp
    simp only [rowMatches, Bool.and_eq_true, decide_eq_true_eq] at hp
    simp [hp.1]

theorem filter_idem {α : Type} (p : α → Bool) (l : List α) :
    (l.filter p).filter p = l.filter p :=
  List.filter_eq_self.mpr (fun a ha => List.of_mem_filter ha)

theorem filter_and_absorb {α : Type} (p q : α → Bool) (l : List α) :
    (l.filter p).filter (fun r => p r && q r)
      = l.filter (fun r => p r && q r) := by
  induction l with
  | nil => rfl
  | cons x rest ih =>
      rw [List.filter_cons]
      by_cases hp : p x = true
      · rw [if_pos hp, List.filter_cons, List.filter_cons]
        by_cases hq : q x = true
        · rw [if_pos (by simp [hp, hq]), if_pos (by simp [hp, hq]), ih]
        · rw [Bool.not_eq_true] at hq
          rw [if_neg (by simp [hq]), if_neg (by simp [hq]), ih]
      · rw [Bool.not_eq_true] at hp
        rw [if_neg (by simp [hp]), List.filter_cons, if_neg (by simp [hp]), ih]

theorem memClampValue_none (v : JsonValue) : memClampValue none v = v := by
  cases v <;> rfl

theorem sqlClampJsonValue_none (v : JsonValue) : sqlClampJsonValue v none = v := by
  cases v <;> rfl

/-- C7: namespace isolation.  For namespaces `A ≠ B` over one shared
physical map/table: writing the same key in both namespaces leaves both
entries independently readable; the mutating operations of an instance
bound to `A` (`insertIfNotExistsMany`, `updateIfExistsMany`,
`removeIfExistsMany`) change no slot of any other namespace; the reads
observe only `A`'s entries (`getMany` is determined by `A`'s slots; `size`
counts exactly the entries whose decoded namespace is `A`; iteration yields
exactly `A`'s entries, and the pattern scans are filters of that iteration
for the memory backend and of the `A`-rows for SQLite); and `clear()` on
`A` empties `A` while leaving every other namespace's entries intact.  The
memory-backend parts assume the shared map is well formed: every physical
key was produced by `serializeInternalKey` (all entries are written through
`setInternal`) and keys are unique (a JS `Map` invariant). -/
theorem c7_namespace_isolation (A B : String) (hAB : A ≠ B)
    (k : String) (v1 v2 : JsonValue) (m : MemState)
    (hwf1 : ∀ p ∈ m, ∃ ik : InternalKey, p.1 = serializeInternalKey ik)
    (hwf2 : (m.map Prod.fst).Nodup)
    (tbl : SqlTable) (items : List (String × JsonValue)) (keys : List String)
    (settings : Option ClampSettings) :
    -- (1) independent readability, memory backend
    (memLookup m A k = none → memLookup m B k = none →
      memLookup (memInsertIfNotExistsMany
          (memInsertIfNotExistsMany m A [(k, v1)] none).1
          B [(k, v2)] none).1 A k = some v1 ∧
      memLookup (memInsertIfNotExistsMany
          (memInsertIfNotExistsMany m A [(k, v1)] none).1
          B [(k, v2)] none).1 B k = some v2) ∧
    -- (2) mutation scoping, memory backend
    (∀ ns' k', ns' ≠ A →
      memLookup (memInsertIfNotExistsMany m A items settings).1 ns' k'
        = memLookup m ns' k' ∧
      memLookup (memUpdateIfExistsMany m A items settings).1 ns' k'
        = memLookup m ns' k' ∧
      memLookup (memRemoveIfExistsMany m A keys).1 ns' k'
        = memLookup m ns' k') ∧
    -- (3) read scoping, memory backend
    ((∀ m' : MemState, (∀ kk, memLookup m A kk = memLookup m' A kk) →
        memGetMany m A keys = memGetMany m' A keys) ∧
     memSize m A = .ok (m.countP (fun p => decide (decodeNs p.1 = some A))) ∧
     (∃ l, memIterate m A = .ok l ∧
        ∀ kk vv, ((kk, vv) ∈ l ↔ memLookup m A kk = some vv))) ∧
    -- (4) clear, memory backend
    (∃ m', memClear m A = .ok m' ∧
      (∀ kk, memLookup m' A kk = none) ∧
      (∀ ns' kk, ns' ≠ A → memLookup m' ns' kk = memLookup m ns' kk)) ∧
    -- (5) independent readability, SQLite backend
    (sqlLookup tbl A k = none → sqlLookup tbl B k = none →
      sqlLookup (sqliteInsertIfNotExistsMany
          (sqliteInsertIfNotExistsMany tbl A [(k, v1)] none).1
          B [(k, v2)] none).1 A k = some v1 ∧
      sqlLookup (sqliteInsertIfNotExistsMany
          (sqliteInsertIfNotExistsMany tbl A [(k, v1)] none).1
          B [(k, v2)] none).1 B k = some v2) ∧
    -- (6) mutation scoping, SQLite backend
    (∀ ns' k', ns' ≠ A →
      sqlLookup (sqliteInsertIfNotExistsMany tbl A items settings).1 ns' k'
        = sqlLookup tbl ns' k' ∧
      sqlLookup (sqliteUpdateIfExistsMany tbl A items settings).1 ns' k'
        = sqlLookup tbl ns' k' ∧
      sqlLookup (sqliteRemoveIfExistsMany tbl A keys).1 ns' k'
        = sqlLookup tbl ns' k' ∧
      sqlLookup (sqliteClear tbl A) ns' k' = sqlLookup tbl ns' k') ∧
    -- (7) read scoping, SQLite backend
    (sqliteGetMany tbl A keys
        = sqliteGetMany (tbl.filter (fun r => r.ns = A)) A keys ∧
     sqliteIterate tbl A = sqliteIterate (tbl.filter (fun r => r.ns = A)) A ∧
     sqliteSize tbl A = sqliteSize (tbl.filter (fun r => r.ns = A)) A ∧
     (∀ pat, sqliteGetStartsWithMany tbl A pat
        = sqliteGetStartsWithMany (tbl.filter (fun r => r.ns = A)) A pat) ∧
     (∀ pat, sqliteGetEndsWithMany tbl A pat
        = sqliteGetEndsWithMany (tbl.filter (fun r => r.ns = A)) A pat) ∧
     (∀ pat, sqliteGetIncludesMany tbl A pat
        = sqliteGetIncludesMany (tbl.filter (fun r => r.ns = A)) A pat)) ∧
    -- (8) clear, SQLite backend
    (∀ kk, sqlLookup (sqliteClear tbl A) A kk = none) := by
  have hwfSome : ∀ p ∈ m, (deserializeInternalKey p.1).isSome := by
    intro p hp
    obtain ⟨ik, hik⟩ := hwf1 p hp
    rw [hik, deserialize_serialize]
    rfl
  refine ⟨?_, ?_, ⟨?_, ?_, ?_⟩, ?_, ?_, ?_, ⟨?_, ?_, ?_, ?_, ?_, ?_⟩, ?_⟩
  · -- (1)
    intro habsA habsB
    have hhasA : hasInternal m ⟨k, A⟩ = false := by
      simp only [hasInternal]
      rw [show getEntry m (serializeInternalKey ⟨k, A⟩) = none from habsA]
      rfl
    obtain ⟨_, hst1⟩ := memInsert_facts [(k, v1)] A none m [] (by simp) k v1
      (by simp)
    rw [hhasA] at hst1
    simp only [Bool.false_eq_true, if_false, memClampValue_none] at hst1
    have hframe1 : memLookup (memInsertIfNotExistsMany m A [(k, v1)] none).1 B k
        = memLookup m B k :=
      memInsert_state_frame [(k, v1)] A none (m, []) ⟨k, B⟩
        (Or.inl (Ne.symm hAB))
    have hhasB : hasInternal (memInsertIfNotExistsMany m A [(k, v1)] none).1
        ⟨k, B⟩ = false := by
      simp only [hasInternal]
      rw [show getEntry (memInsertIfNotExistsMany m A [(k, v1)] none).1
          (serializeInternalKey ⟨k, B⟩) = none from hframe1.trans habsB]
      rfl
    obtain ⟨_, hst2⟩ := memInsert_facts [(k, v2)] B none
      (memInsertIfNotExistsMany m A [(k, v1)] none).1 [] (by simp) k v2 (by simp)
    rw [hhasB] at hst2
    simp only [Bool.false_eq_true, if_false, memClampValue_none] at hst2
    have hframe2 : memLookup (memInsertIfNotExistsMany
        (memInsertIfNotExistsMany m A [(k, v1)] none).1 B [(k, v2)] none).1 A k
        = memLookup (memInsertIfNotExistsMany m A [(k, v1)] none).1 A k :=
      memInsert_state_frame [(k, v2)] B none
        ((memInsertIfNotExistsMany m A [(k, v1)] none).1, []) ⟨k, A⟩
        (Or.inl hAB)
    exact ⟨hframe2.trans hst1, hst2⟩
  · -- (2)
    intro ns' k' hns
    exact ⟨memInsert_state_frame items A settings (m, []) ⟨k', ns'⟩ (Or.inl hns),
      memUpdate_state_frame items A settings (m, []) ⟨k', ns'⟩ (Or.inl hns),
      memRemove_state_frame keys A (m, []) ⟨k', ns'⟩ (Or.inl hns)⟩
  · -- (3) getMany
    intro m' hagree
    exact memGetMany_congr keys A m m' hagree
  · -- (3) size
    have h := sizeLoop_ok A m 0 hwfSome
    rw [Nat.zero_add] at h
    exact h
  · -- (3) iterate
    obtain ⟨l, hok, hiff⟩ :=
      memIterateLoop_facts m A hwf1 hwf2 m (fun p hp => hp)
    refine ⟨l, hok, ?_⟩
    intro kk vv
    rw [hiff kk vv]
    constructor
    · intro hmem
      exact getEntry_eq_some_of_mem hwf2 hmem
    · intro hlook
      exact mem_of_getEntry_eq_some hlook
  · -- (4)
    obtain ⟨m', hok, hdel, hpres, hdelns⟩ := clearLoop_facts A m m hwfSome
    refine ⟨m', hok, ?_, ?_⟩
    · intro kk
      cases hcur : getEntry m (serializeInternalKey ⟨kk, A⟩) with
      | none =>
          rcases hdel (serializeInternalKey ⟨kk, A⟩) with h | h
          · exact h.trans hcur
          · exact h
      | some vv =>
          apply hdelns
          · exact List.mem_map.mpr ⟨_, mem_of_getEntry_eq_some hcur, rfl⟩
          · exact ⟨⟨kk, A⟩, deserialize_serialize _, rfl⟩
    · intro ns' kk hns
      exact hpres (serializeInternalKey ⟨kk, ns'⟩) ⟨kk, ns'⟩
        (deserialize_serialize _) hns
  · -- (5)
    intro habsA habsB
    have hanyA : tbl.any (rowMatches A k) = false := by
      rw [sqlAny_eq_lookup_isSome, habsA]
      rfl
    obtain ⟨_, hst1⟩ := sqliteInsert_facts [(k, v1)] A none tbl [] (by simp)
      k v1 (by simp)
    rw [hanyA] at hst1
    simp only [Bool.false_eq_true, if_false] at hst1
    have h1eq : (sqliteInsertIfNotExistsMany tbl A [(k, v1)] none).1
        = ([(k, v1)].foldl (sqliteInsertRow A none) (tbl, [])).1 := by
      simp [sqliteInsertIfNotExistsMany]
    have hframe1 : sqlLookup (sqliteInsertIfNotExistsMany tbl A [(k, v1)] none).1
        B k = sqlLookup tbl B k := by
      rw [h1eq]
      simp only [sqlLookup]
      rw [sqliteInsert_other_ns_frame [(k, v1)] A none tbl [] B k (Ne.symm hAB)]
    have hanyB : ((sqliteInsertIfNotExistsMany tbl A [(k, v1)] none).1).any
        (rowMatches B k) = false := by
      rw [sqlAny_eq_lookup_isSome, hframe1.trans habsB]
      rfl
    obtain ⟨_, hst2⟩ := sqliteInsert_facts [(k, v2)] B none
      (sqliteInsertIfNotExistsMany tbl A [(k, v1)] none).1 [] (by simp)
      k v2 (by simp)
    rw [hanyB] at hst2
    simp only [Bool.false_eq_true, if_false] at hst2
    have h2eq : (sqliteInsertIfNotExistsMany
        (sqliteInsertIfNotExistsMany tbl A [(k, v1)] none).1 B [(k, v2)] none).1
        = ([(k, v2)].foldl (sqliteInsertRow B none)
            ((sqliteInsertIfNotExistsMany tbl A [(k, v1)] none).1, [])).1 := by
      simp [sqliteInsertIfNotExistsMany]
    constructor
    · rw [h2eq]
      simp only [sqlLookup]
      rw [sqliteInsert_other_ns_frame [(k, v2)] B none _ [] A k hAB]
      rw [← sqlLookup, h1eq, sqlLookup]
      rw [hst1]
      simp [sqlClampJsonValue_none]
    · rw [h2eq]
      simp only [sqlLookup]
      rw [hst2]
      simp [sqlClampJsonValue_none]
  · -- (6)
    intro ns' k' hns
    refine ⟨?_, sqliteUpdate_other_ns tbl A items settings ns' k' hns,
      sqliteRemove_other_ns tbl A keys ns' k' hns,
      sqliteClear_other_ns tbl A ns' k' hns⟩
    by_cases hempty : items.isEmpty
    · simp [sqliteInsertIfNotExistsMany, hempty]
    · simp only [sqliteInsertIfNotExistsMany, hempty, Bool.false_eq_true,
        if_false]
      simp only [sqlLookup]
      rw [sqliteInsert_other_ns_frame items A settings tbl [] ns' k' hns]
  · -- (7) getMany
    simp only [sqliteGetMany, filter_idem]
  · -- (7) iterate
    simp only [sqliteIterate, filter_idem]
  · -- (7) size
    simp only [sqliteSize, filter_idem]
  · -- (7) startsWith
    intro pat
    simp only [sqliteGetStartsWithMany, filter_and_absorb]
  · -- (7) endsWith
    intro pat
    simp only [sqliteGetEndsWithMany, filter_and_absorb]
  · -- (7) includes
    intro pat
    simp only [sqliteGetIncludesMany, filter_and_absorb]
  · -- (8)
    intro kk
    exact sqliteClear_own_ns tbl A kk

theorem c7_namespace_isolation_witness :
    (("a" : String) ≠ "b") ∧
    memLookup (memInsertIfNotExistsMany
        (memInsertIfNotExistsMany [] "a" [("k", JsonValue.num 1)] none).1
        "b" [("k", JsonValue.num 2)] none).1 "a" "k" = some (JsonValue.num 1) ∧
    memLookup (memInsertIfNotExistsMany
        (memInsertIfNotExistsMany [] "a" [("k", JsonValue.num 1)] none).1
        "b" [("k", JsonValue.num 2)] none).1 "b" "k" = some (JsonValue.num 2) ∧
    sqlLookup (sqliteInsertIfNotExistsMany
        (sqliteInsertIfNotExistsMany [] "a" [("k", JsonValue.num 1)] none).1
        "b" [("k", JsonValue.num 2)] none).1 "a" "k" = some (JsonValue.num 1) ∧
    sqlLookup (sqliteInsertIfNotExistsMany
        (sqliteInsertIfNotExistsMany [] "a" [("k", JsonValue.num 1)] none).1
        "b" [("k", JsonValue.num 2)] none).1 "b" "k" = some (JsonValue.num 2) ∧
    sqlLookup (sqliteClear [] "a") "a" "k" = none :=
  ⟨by decide,
   ((c7_namespace_isolation "a" "b" (by decide) "k" (JsonValue.num 1)
      (JsonValue.num 2) [] (by simp) (by simp) [] [] [] none).1 rfl rfl).1,
   ((c7_namespace_isolation "a" "b" (by decide) "k" (JsonValue.num 1)
      (JsonValue.num 2) [] (by simp) (by simp) [] [] [] none).1 rfl rfl).2,
   ((c7_namespace_isolation "a" "b" (by decide) "k" (JsonValue.num 1)
      (JsonValue.num 2) [] (by simp) (by simp) [] [] []
      none).2.2.2.2.1 rfl rfl).1,
   ((c7_namespace_isolation "a" "b" (by decide) "k" (JsonValue.num 1)
      (JsonValue.num 2) [] (by simp) (by simp) [] [] []
      none).2.2.2.2.1 rfl rfl).2,
   (c7_namespace_isolation "a" "b" (by decide) "k" (JsonValue.num 1)
      (JsonValue.num 2) [] (by simp) (by simp) [] [] []
      none).2.2.2.2.2.2.2 "k"⟩
